import Mathlib

/-!
Verification of `atomic-ptr-plus` (`src/trunk/atomic-ptr/atomic_ptr.h`).

The header implements a lock-free reference-counted smart pointer built from
three collaborating types:

* `atomic_ptr_ref<T>` — the reference block carrying the counter pair
  `(ecount, rcount)`, the payload pointer, a recycling-pool hook and an
  intrusive `next` link (atomic_ptr.h:86-151);
* `local_ptr<T>` — the thread-local pinned handle (atomic_ptr.h:159-269);
* `atomic_ptr<T>` — the shared slot holding the pair `(ecount, ptr)`
  mutated only through wide CAS (atomic_ptr.h:290-454).

The embedding below is shallow and sequential: pointers become `Option Nat`
addresses, C `long` counters become `Int` (no caller ever overflows them),
and each CAS loop executed without interference succeeds on its first
attempt.  For the two loops whose retry behaviour the specification talks
about (`atomic_ptr_ref::adjust` and `atomic_ptr::cas`) we additionally model
the loop against an explicit schedule of the values the contended word holds
at each CAS attempt, so that linearization-point statements are expressible.

A system state `Sys` tracks every reference block, every live handle and
every live slot, together with event logs for payload destruction, block
deallocation and pool-hook invocations.  Each public operation of the header
is one constructor of `Op`; `exec` is its (total) small-step semantics, with
calls on dead or foreign objects — undefined behaviour in the C++ source —
modelled as no-ops, and the recycle-install constructors guarded by the
pool-ownership precondition the source delegates to the pool discipline
(only a quiescent block, counter pair `(0,0)`, may be re-installed).
-/

namespace AtomicPtr

/-- Counter pair of a reference block (`struct refcount`, atomic_ptr.h:68-71):
`ecount` is the ephemeral count, `rcount` the reference count. -/
structure refcount where
  ecount : Int
  rcount : Int
deriving Repr, DecidableEq

/-- Slot pair of an `atomic_ptr` (`struct ref<T>`, atomic_ptr.h:73-76): the
slot-local ephemeral count together with the block pointer.  Block addresses
are `Nat`; `none` is the null pointer. -/
structure ref where
  ecount : Int
  ptr : Option Nat
deriving Repr, DecidableEq

/-- Reference block `atomic_ptr_ref<T>` (atomic_ptr.h:86-151): counter pair,
payload pointer, recycling-pool hook and intrusive `next` link.  Payloads and
pool hooks are identified by numbers; `none` is the null pointer.  The
constructor `atomic_ptr_ref(T*)` initializes `count = (0,1)`, `pool = 0`,
`next = 0` (atomic_ptr.h:107-113). -/
structure atomic_ptr_ref where
  count : refcount
  ptr : Option Nat
  pool : Option Nat
  next : Option Nat
deriving Repr, DecidableEq

/-- Embeds `atomic_ptr_ref::adjust` (atomic_ptr.h:136-149) executed without
interference, so that the full-barrier CAS succeeds on its first attempt.
Returns the updated counter pair together with the source's `int` result:
`0` exactly when the new pair is `(0,0)` and `1` otherwise.  The `int 0`
return is the source's encoding of the "dropped to zero" answer — every
caller tests `adjust(...) == 0` (atomic_ptr.h:193, 335). -/
def adjustSeq (c : refcount) (xephemeralCount xreferenceCount : Int) : refcount × Int :=
  let newval : refcount := ⟨c.ecount + xephemeralCount, c.rcount + xreferenceCount⟩
  (newval, if newval.ecount = 0 ∧ newval.rcount = 0 then 0 else 1)

/-- Embeds the CAS loop of `atomic_ptr_ref::adjust` (atomic_ptr.h:141-146)
against a schedule of interference: `oldval` is the value read before the
loop (atomic_ptr.h:139-140) and the list holds the value the counter word
actually contains at each successive CAS attempt.  A CAS attempt succeeds
exactly when the current value still equals the expected one; on failure the
expected value is reloaded (the semantics of `atomic_cas_sync`) and the loop
retries.  `none` means the schedule ran out before a CAS succeeded. -/
def adjustLoop (xephemeralCount xreferenceCount : Int) :
    refcount → List refcount → Option (refcount × Int)
  | _, [] => none
  | oldval, cur :: rest =>
    if cur = oldval then
      let newval : refcount :=
        ⟨oldval.ecount + xephemeralCount, oldval.rcount + xreferenceCount⟩
      some (newval, if newval.ecount = 0 ∧ newval.rcount = 0 then 0 else 1)
    else adjustLoop xephemeralCount xreferenceCount cur rest

/-- Outcome of the `atomic_ptr::cas` retry loop (atomic_ptr.h:398-406):
either some CAS attempt succeeded and returned the slot's previous pair
(`success`), or an observed block pointer differed from the expected one and
the loop exited with `rc == false` (`failure`), or the schedule ran out while
the loop was still retrying (`fuel`). -/
inductive CasOutcome where
  | success (prev : ref)
  | failure
  | fuel
deriving Repr, DecidableEq

/-- Embeds the retry loop of `atomic_ptr::cas` (atomic_ptr.h:390-409) against
a schedule: `temp` is the expected pair (initially `(xxx.ecount, cmp.refptr)`,
atomic_ptr.h:394-395) and the list holds the pair the slot actually contains
at each successive CAS attempt.  On a failed CAS the expected pair is
reloaded into `temp` (the semantics of `atomic_cas_rel`) and the loop
continues exactly while `cmp.refptr == temp.ptr` (atomic_ptr.h:406). -/
def casLoop (cmpPtr : Option Nat) : ref → List ref → CasOutcome
  | _, [] => .fuel
  | temp, cur :: rest =>
    if cur = temp then .success temp
    else if cmpPtr = cur.ptr then casLoop cmpPtr cur rest
    else .failure

/-- Embeds `atomic_ptr::cas` (atomic_ptr.h:390-409) against a schedule of
slot values: `e0` is the slot ecount read at atomic_ptr.h:394, `cmp` the
expected handle's block pointer, `xchg` the pair of the by-value `xchg`
parameter.  Returns the boolean result together with `xchg`'s pair after the
call: on success the slot's previous pair is transferred into it
(atomic_ptr.h:400), on failure it is left unchanged.  `none` means the loop
was still retrying when the schedule ran out. -/
def casRun (reads : List ref) (e0 : Int) (cmp : Option Nat) (xchg : ref) :
    Option (Bool × ref) :=
  match casLoop cmp ⟨e0, cmp⟩ reads with
  | .success prev => some (true, prev)
  | .failure => some (false, xchg)
  | .fuel => none

/-- Fresh reference block as built by `new atomic_ptr_ref<T>(obj)`
(atomic_ptr.h:107-113): counters `(0,1)`, null pool hook, null link. -/
def newBlock (p : Option Nat) : atomic_ptr_ref :=
  ⟨⟨0, 1⟩, p, none, none⟩

/-- Global state of the sequential model: reference blocks indexed by
address (`none` = freed), live pinned handles (a cell is `none` once the
handle is destructed; a live handle stores its `refptr`), live atomic slots
(each a pair `(ecount, ptr)`), and three event logs: addresses of blocks
freed by `delete refptr`, pool-hook invocations `(hook, block address)`, and
payloads destructed by `~atomic_ptr_ref` (atomic_ptr.h:116-118). -/
structure Sys where
  blocks : List (Option atomic_ptr_ref)
  handles : List (Option (Option Nat))
  slots : List (Option ref)
  destroyed : List Nat
  recycledEv : List (Nat × Nat)
  dtors : List Nat
deriving Repr, DecidableEq

/-- The empty initial state: no blocks, handles or slots and empty logs. -/
def init : Sys := ⟨[], [], [], [], [], []⟩

/-- Operations of the public interface, one constructor per source function.
Assignment operators and the `recycle` methods are compositions of a
constructor, a swap and a destructor in the source (atomic_ptr.h:201-217,
241-245, 344-360, 415-419) and are therefore covered by sequences of these
operations. -/
inductive Op where
  | newLocal (payload : Option Nat)
  | copyLocal (h : Nat)
  | pinLocal (s : Nat)
  | recycleLocal (a : Nat)
  | dropLocal (h : Nat)
  | newAtomic (payload : Option Nat)
  | fromLocalAtomic (h : Nat)
  | copyAtomic (s : Nat)
  | recycleAtomic (a : Nat)
  | dropAtomic (s : Nat)
  | swapOp (s t : Nat)
  | casOp (s h t : Nat)
  | setPoolOp (h : Nat) (p : Option Nat)

/-- Applies `adjust` to the block at address `a`, ignoring the returned
zero-indication — the call sites that use this never destroy
(atomic_ptr.h:175, 310, 319). -/
def adjustBlock (σ : Sys) (a : Nat) (de dr : Int) : Sys :=
  match σ.blocks.getD a none with
  | none => σ
  | some b =>
    { σ with blocks := σ.blocks.set a (some { b with count := (adjustSeq b.count de dr).1 }) }

/-- Embeds the shared release epilogue of `~local_ptr` (atomic_ptr.h:192-199)
and `~atomic_ptr` (atomic_ptr.h:333-342): call `adjust(de, dr)` on the block
at `a`; when the result signals the pair dropped to `(0,0)`, either `delete`
the block (running `~atomic_ptr_ref`, which destructs the payload,
atomic_ptr.h:116-118) when its pool hook is null, or hand the block to the
pool hook without destructing the payload or freeing the block. -/
def releaseAt (σ : Sys) (a : Nat) (de dr : Int) : Sys :=
  match σ.blocks.getD a none with
  | none => σ
  | some b =>
    let r := adjustSeq b.count de dr
    let b' : atomic_ptr_ref := { b with count := r.1 }
    if r.2 = 0 then
      match b'.pool with
      | none =>
        { σ with blocks := σ.blocks.set a none,
                 destroyed := σ.destroyed ++ [a],
                 dtors := σ.dtors ++ (match b'.ptr with | some p => [p] | none => []) }
      | some f =>
        { σ with blocks := σ.blocks.set a (some b'),
                 recycledEv := σ.recycledEv ++ [(f, a)] }
    else
      { σ with blocks := σ.blocks.set a (some b') }

/-- Embeds `~local_ptr` (atomic_ptr.h:192-199): remove the handle; when its
`refptr` is non-null, `adjust(-1, 0)` and destroy-or-recycle on zero. -/
def dropLocalFn (σ : Sys) (h : Nat) : Sys :=
  match σ.handles.getD h none with
  | none => σ
  | some hv =>
    let σ' := { σ with handles := σ.handles.set h none }
    match hv with
    | none => σ'
    | some a => releaseAt σ' a (-1) 0

/-- Embeds `~atomic_ptr` (atomic_ptr.h:333-342): remove the slot; when its
block pointer is non-null, `adjust(xxx.ecount, -1)` and destroy-or-recycle
on zero. -/
def dropAtomicFn (σ : Sys) (s : Nat) : Sys :=
  match σ.slots.getD s none with
  | none => σ
  | some sl =>
    let σ' := { σ with slots := σ.slots.set s none }
    match sl.ptr with
    | none => σ'
    | some a => releaseAt σ' a sl.ecount (-1)

/-- Small-step semantics of the interface.  Each case mirrors one source
function; see the comments.  Calls naming a dead handle, slot or block are
no-ops (undefined behaviour in C++), as are the recycle-install constructors
on a block that is not quiescent (the pool-ownership precondition). -/
def exec (σ : Sys) : Op → Sys
  | .newLocal none =>
    -- local_ptr(T* obj) with obj == 0 (atomic_ptr.h:163-171): empty handle.
    { σ with handles := σ.handles ++ [some none] }
  | .newLocal (some p) =>
    -- local_ptr(T* obj), obj != 0 (atomic_ptr.h:163-171): new block via
    -- new atomic_ptr_ref<T>(obj), counters then overwritten to (1,0).
    { σ with blocks := σ.blocks ++ [some ⟨⟨1, 0⟩, some p, none, none⟩],
             handles := σ.handles ++ [some (some σ.blocks.length)] }
  | .copyLocal h =>
    -- local_ptr(const local_ptr&) (atomic_ptr.h:173-176): adjust(+1, 0).
    match σ.handles.getD h none with
    | none => σ
    | some none => { σ with handles := σ.handles ++ [some none] }
    | some (some a) =>
      let σ' := adjustBlock σ a 1 0
      { σ' with handles := σ'.handles ++ [some (some a)] }
  | .pinLocal s =>
    -- local_ptr(atomic_ptr&) (atomic_ptr.h:178-180) via getrefptr
    -- (atomic_ptr.h:439-452): CAS-increment the slot ecount, hand the
    -- observed block pointer to the new handle.  No block counter changes.
    match σ.slots.getD s none with
    | none => σ
    | some sl =>
      { σ with slots := σ.slots.set s (some { sl with ecount := sl.ecount + 1 }),
               handles := σ.handles ++ [some sl.ptr] }
  | .recycleLocal a =>
    -- local_ptr(atomic_ptr_ref* src) (atomic_ptr.h:183-190): reset the
    -- supplied quiescent block to (1,0); pool unchanged; no allocation.
    match σ.blocks.getD a none with
    | none => σ
    | some b =>
      if b.count.ecount = 0 ∧ b.count.rcount = 0 then
        { σ with blocks := σ.blocks.set a (some { b with count := ⟨1, 0⟩ }),
                 handles := σ.handles ++ [some (some a)] }
      else σ
  | .dropLocal h => dropLocalFn σ h
  | .newAtomic none =>
    -- atomic_ptr(T* obj) with obj == 0 (atomic_ptr.h:298-305): null slot.
    { σ with slots := σ.slots ++ [some ⟨0, none⟩] }
  | .newAtomic (some p) =>
    -- atomic_ptr(T* obj), obj != 0: fresh block keeps ctor counters (0,1).
    { σ with blocks := σ.blocks ++ [some (newBlock (some p))],
             slots := σ.slots ++ [some ⟨0, some σ.blocks.length⟩] }
  | .fromLocalAtomic h =>
    -- atomic_ptr(local_ptr&) (atomic_ptr.h:307-311): adjust(0, +1).
    match σ.handles.getD h none with
    | none => σ
    | some none => { σ with slots := σ.slots ++ [some ⟨0, none⟩] }
    | some (some a) =>
      let σ' := adjustBlock σ a 0 1
      { σ' with slots := σ'.slots ++ [some ⟨0, some a⟩] }
  | .copyAtomic s =>
    -- atomic_ptr(atomic_ptr&) (atomic_ptr.h:313-320): getrefptr on the
    -- source slot, then the migrate step adjust(-1, +1) when non-null.
    match σ.slots.getD s none with
    | none => σ
    | some sl =>
      let σ' := { σ with slots := σ.slots.set s (some { sl with ecount := sl.ecount + 1 }) }
      match sl.ptr with
      | none => { σ' with slots := σ'.slots ++ [some ⟨0, none⟩] }
      | some a =>
        let σ'' := adjustBlock σ' a (-1) 1
        { σ'' with slots := σ''.slots ++ [some ⟨0, some a⟩] }
  | .recycleAtomic a =>
    -- atomic_ptr(atomic_ptr_ref* src) (atomic_ptr.h:323-330): reset the
    -- supplied quiescent block to (0,1); pool unchanged; no allocation.
    match σ.blocks.getD a none with
    | none => σ
    | some b =>
      if b.count.ecount = 0 ∧ b.count.rcount = 0 then
        { σ with blocks := σ.blocks.set a (some { b with count := ⟨0, 1⟩ }),
                 slots := σ.slots ++ [some ⟨0, some a⟩] }
      else σ
  | .dropAtomic s => dropAtomicFn σ s
  | .swapOp s t =>
    -- atomic_ptr::swap (atomic_ptr.h:423-434): atomically exchange the two
    -- pairs (the right-hand side is local and non-shared).
    if s = t then σ
    else
      match σ.slots.getD s none, σ.slots.getD t none with
      | some sl, some tl =>
        { σ with slots := (σ.slots.set s (some tl)).set t (some sl) }
      | _, _ => σ
  | .casOp s h t =>
    -- atomic_ptr::cas (atomic_ptr.h:390-409), sequential: the first CAS
    -- attempt decides.  `h` is the `cmp` handle, `t` the by-value `xchg`
    -- copy, which destructs at scope end either way (releasing the slot's
    -- previous pair on success, the desired pair's share on failure).
    if s = t then σ
    else
      match σ.handles.getD h none, σ.slots.getD s none, σ.slots.getD t none with
      | some cmp, some sl, some tl =>
        if sl.ptr = cmp then
          dropAtomicFn { σ with slots := (σ.slots.set s (some tl)).set t (some sl) } t
        else dropAtomicFn σ t
      | _, _, _ => σ
  | .setPoolOp h p =>
    -- local_ptr::setPool (atomic_ptr.h:247-249) on a non-empty handle.
    match σ.handles.getD h none with
    | some (some a) =>
      match σ.blocks.getD a none with
      | some b => { σ with blocks := σ.blocks.set a (some { b with pool := p }) }
      | none => σ
    | _ => σ

/-- Runs a sequence of operations from the empty state. -/
def runOps (ops : List Op) : Sys := ops.foldl exec init

/-- Embeds `local_ptr::get` (atomic_ptr.h:220-222): a null `refptr` yields
the null payload pointer, otherwise the referenced block's payload pointer
(read through `atomic_load_depends`). -/
def localGet (σ : Sys) (h : Nat) : Option Nat :=
  match σ.handles.getD h none with
  | some (some a) =>
    (match σ.blocks.getD a none with
     | some b => b.ptr
     | none => none)
  | _ => none

/-- Embeds `local_ptr::setPool` (atomic_ptr.h:247-249).  The source stores
through `refptr` with no emptiness check; `none` models the null-pointer
dereference that a call on an empty handle performs. -/
def setPoolRun (σ : Sys) (h : Nat) (p : Option Nat) : Option Sys :=
  match σ.handles.getD h none with
  | some (some a) =>
    (match σ.blocks.getD a none with
     | some b => some { σ with blocks := σ.blocks.set a (some { b with pool := p }) }
     | none => none)
  | _ => none

/-- Embeds `local_ptr::getPool` (atomic_ptr.h:251-253).  The source reads
through `refptr` with no emptiness check; `none` models the null-pointer
dereference that a call on an empty handle performs. -/
def getPoolRun (σ : Sys) (h : Nat) : Option (Option Nat) :=
  match σ.handles.getD h none with
  | some (some a) =>
    (match σ.blocks.getD a none with
     | some b => some b.pool
     | none => none)
  | _ => none

/-- Tests whether a handle cell is a live handle on block `a`. -/
def handleHit (a : Nat) (h : Option (Option Nat)) : Bool :=
  decide (h = some (some a))

/-- Tests whether a slot cell is a live slot whose block pointer is `a`. -/
def slotHit (a : Nat) : Option ref → Bool
  | some sl => decide (sl.ptr = some a)
  | none => false

/-- The slot-local ephemeral count a slot cell contributes to block `a`. -/
def slotKey (a : Nat) : Option ref → Int
  | some sl => if sl.ptr = some a then sl.ecount else 0
  | none => 0

/-- Number of live handles whose `refptr` is block `a`. -/
def Hcount (hs : List (Option (Option Nat))) (a : Nat) : Nat :=
  hs.countP (handleHit a)

/-- Number of live slots whose block pointer is `a`. -/
def Scount (ss : List (Option ref)) (a : Nat) : Nat :=
  ss.countP (slotHit a)

/-- Sum of the slot-local ephemeral counts of the live slots holding `a`:
the ephemeral shares handed out through a slot and not yet delivered to the
block (they are delivered by `~atomic_ptr`'s `adjust(xxx.ecount, -1)`). -/
def Ksum (ss : List (Option ref)) (a : Nat) : Int :=
  (ss.map (slotKey a)).sum

/-- Lifts a predicate over an optional value, holding vacuously at `none`. -/
def optAll (p : α → Prop) : Option α → Prop
  | none => True
  | some x => p x

instance optAllDecidable (p : α → Prop) [DecidablePred p] :
    DecidablePred (optAll p) := fun o =>
  match o with
  | none => isTrue trivial
  | some x => inferInstanceAs (Decidable (p x))

/-- The block at address `a` is still allocated. -/
def liveB (σ : Sys) (a : Nat) : Prop :=
  σ.blocks.getD a none ≠ none

instance liveBDecidable (σ : Sys) (a : Nat) : Decidable (liveB σ a) :=
  inferInstanceAs (Decidable (σ.blocks.getD a none ≠ none))

/-- Counter bookkeeping at address `a`: a live block's ephemeral count plus
the undelivered slot-side ephemerals equals the number of live handles on
it, and its reference count equals the number of live slots holding it. -/
def blockOK (σ : Sys) (a : Nat) : Prop :=
  optAll
    (fun b =>
      b.count.ecount + Ksum σ.slots a = (Hcount σ.handles a : Int) ∧
      b.count.rcount = (Scount σ.slots a : Int))
    (σ.blocks.getD a none)

/-- A live handle never dangles: its `refptr` names a live block. -/
def handleOK (σ : Sys) (h : Nat) : Prop :=
  optAll (optAll (liveB σ)) (σ.handles.getD h none)

/-- A live slot never dangles: its block pointer names a live block. -/
def slotOK (σ : Sys) (s : Nat) : Prop :=
  optAll (fun sl => optAll (liveB σ) sl.ptr) (σ.slots.getD s none)

/-- Global invariant: per-block counter bookkeeping, no dangling handle or
slot, each freed address was freed exactly once and stays dead. -/
def Inv (σ : Sys) : Prop :=
  (∀ a, a < σ.blocks.length → blockOK σ a) ∧
  (∀ h, h < σ.handles.length → handleOK σ h) ∧
  (∀ s, s < σ.slots.length → slotOK σ s) ∧
  σ.destroyed.Nodup ∧
  (∀ a ∈ σ.destroyed, a < σ.blocks.length ∧ σ.blocks.getD a none = none)

/-- All clauses of `Inv` except that the counter bookkeeping is only
required away from address `a` — the shape of the state mid-release, after
an owner was detached and before its `adjust` delta lands on the block. -/
def InvExcept (σ : Sys) (a : Nat) : Prop :=
  (∀ x, x < σ.blocks.length → x ≠ a → blockOK σ x) ∧
  (∀ h, h < σ.handles.length → handleOK σ h) ∧
  (∀ s, s < σ.slots.length → slotOK σ s) ∧
  σ.destroyed.Nodup ∧
  (∀ x ∈ σ.destroyed, x < σ.blocks.length ∧ σ.blocks.getD x none = none)

instance blockOKDecidable (σ : Sys) (a : Nat) : Decidable (blockOK σ a) := by
  unfold blockOK
  infer_instance

instance handleOKDecidable (σ : Sys) (h : Nat) : Decidable (handleOK σ h) := by
  unfold handleOK
  infer_instance

instance slotOKDecidable (σ : Sys) (s : Nat) : Decidable (slotOK σ s) := by
  unfold slotOK
  infer_instance

instance invDecidable (σ : Sys) : Decidable (Inv σ) := by
  unfold Inv
  infer_instance

theorem lt_length_of_getD {l : List (Option α)} {a : Nat} {b : α}
    (h : l.getD a none = some b) : a < l.length := by
  by_contra hlt
  rw [List.getD_eq_default _ _ (Nat.le_of_not_lt hlt)] at h
  exact Option.noConfusion h

theorem getD_set_self {l : List α} {i : Nat} (x d : α) (hi : i < l.length) :
    (l.set i x).getD i d = x := by
  rw [List.getD_eq_getElem _ _ (by simpa using hi)]
  simp

theorem getD_set_ne {l : List α} {i j : Nat} (x d : α) (hij : i ≠ j) :
    (l.set i x).getD j d = l.getD j d := by
  by_cases hj : j < l.length
  · rw [List.getD_eq_getElem _ _ (by simpa using hj), List.getD_eq_getElem _ _ hj]
    exact List.getElem_set_ne hij _
  · rw [List.getD_eq_default _ _ (by simpa using Nat.le_of_not_lt hj),
      List.getD_eq_default _ _ (Nat.le_of_not_lt hj)]

theorem getD_append_lt {l : List α} (m : List α) {i : Nat} (d : α)
    (hi : i < l.length) : (l ++ m).getD i d = l.getD i d :=
  List.getD_append _ _ _ _ hi

theorem getD_append_len (l : List α) (x d : α) :
    (l ++ [x]).getD l.length d = x := by
  rw [List.getD_append_right _ _ _ _ (Nat.le_refl _)]
  simp

theorem Hcount_append (hs : List (Option (Option Nat))) (v : Option (Option Nat))
    (a : Nat) :
    Hcount (hs ++ [v]) a = Hcount hs a + (if handleHit a v then 1 else 0) := by
  unfold Hcount
  rw [List.countP_append]
  simp [List.countP_cons]

theorem Hcount_set {hs : List (Option (Option Nat))} {i : Nat}
    (v : Option (Option Nat)) (a : Nat) (hi : i < hs.length) :
    (Hcount (hs.set i v) a : Int) =
      (Hcount hs a : Int) + (if handleHit a v then 1 else 0) -
        (if handleHit a (hs.getD i none) then 1 else 0) := by
  unfold Hcount
  rw [List.countP_set _ _ _ _ hi, List.getD_eq_getElem _ _ hi]
  by_cases h2 : handleHit a hs[i]
  · have hle : 1 ≤ List.countP (handleHit a) hs := by
      have := List.boole_getElem_le_countP (handleHit a) hs i hi
      simpa [h2] using this
    by_cases h1 : handleHit a v <;>
      simp only [h1, h2, if_true, if_false, Bool.false_eq_true] <;> omega
  · by_cases h1 : handleHit a v <;>
      simp only [h1, h2, if_true, if_false, Bool.false_eq_true] <;> omega

theorem Scount_append (ss : List (Option ref)) (v : Option ref) (a : Nat) :
    Scount (ss ++ [v]) a = Scount ss a + (if slotHit a v then 1 else 0) := by
  unfold Scount
  rw [List.countP_append]
  simp [List.countP_cons]

theorem Scount_set {ss : List (Option ref)} {i : Nat} (v : Option ref) (a : Nat)
    (hi : i < ss.length) :
    (Scount (ss.set i v) a : Int) =
      (Scount ss a : Int) + (if slotHit a v then 1 else 0) -
        (if slotHit a (ss.getD i none) then 1 else 0) := by
  unfold Scount
  rw [List.countP_set _ _ _ _ hi, List.getD_eq_getElem _ _ hi]
  by_cases h2 : slotHit a ss[i]
  · have hle : 1 ≤ List.countP (slotHit a) ss := by
      have := List.boole_getElem_le_countP (slotHit a) ss i hi
      simpa [h2] using this
    by_cases h1 : slotHit a v <;>
      simp only [h1, h2, if_true, if_false, Bool.false_eq_true] <;> omega
  · by_cases h1 : slotHit a v <;>
      simp only [h1, h2, if_true, if_false, Bool.false_eq_true] <;> omega

theorem Ksum_append (ss : List (Option ref)) (v : Option ref) (a : Nat) :
    Ksum (ss ++ [v]) a = Ksum ss a + slotKey a v := by
  unfold Ksum
  simp

theorem Ksum_set {ss : List (Option ref)} {i : Nat} (v : Option ref) (a : Nat)
    (hi : i < ss.length) :
    Ksum (ss.set i v) a =
      Ksum ss a + slotKey a v - slotKey a (ss.getD i none) := by
  unfold Ksum
  rw [List.map_set, List.sum_set', List.getD_eq_getElem _ _ hi]
  simp [hi]
  ring

theorem Hcount_eq_zero_iff (hs : List (Option (Option Nat))) (a : Nat) :
    Hcount hs a = 0 ↔ ∀ v ∈ hs, v ≠ some (some a) := by
  unfold Hcount
  rw [List.countP_eq_zero]
  constructor
  · intro h v hv
    have := h v hv
    simpa [handleHit] using this
  · intro h v hv
    simpa [handleHit] using h v hv

theorem Scount_eq_zero_iff (ss : List (Option ref)) (a : Nat) :
    Scount ss a = 0 ↔ ∀ v ∈ ss, slotHit a v = false := by
  unfold Scount
  rw [List.countP_eq_zero]
  constructor
  · intro h v hv
    simpa using h v hv
  · intro h v hv
    simp [h v hv]

theorem Ksum_eq_zero_of_Scount (ss : List (Option ref)) (a : Nat)
    (h : Scount ss a = 0) : Ksum ss a = 0 := by
  unfold Ksum
  apply List.sum_eq_zero
  intro x hx
  rcases List.mem_map.1 hx with ⟨v, hv, rfl⟩
  have := (Scount_eq_zero_iff ss a).1 h v hv
  cases v with
  | none => rfl
  | some sl =>
    simp only [slotHit, decide_eq_false_iff_not] at this
    simp [slotKey, this]

theorem mem_of_getD {l : List (Option α)} {i : Nat} {y : α}
    (h : l.getD i none = some y) : some y ∈ l := by
  have hi := lt_length_of_getD h
  rw [List.getD_eq_getElem _ _ hi] at h
  exact h ▸ List.getElem_mem hi

theorem optAll_some {p : α → Prop} {x : α} : optAll p (some x) ↔ p x := Iff.rfl

theorem optAll_none {p : α → Prop} : optAll p none := trivial

theorem adjustBlock_handles (σ : Sys) (a : Nat) (de dr : Int) :
    (adjustBlock σ a de dr).handles = σ.handles := by
  unfold adjustBlock
  cases σ.blocks.getD a none <;> rfl

theorem adjustBlock_slots (σ : Sys) (a : Nat) (de dr : Int) :
    (adjustBlock σ a de dr).slots = σ.slots := by
  unfold adjustBlock
  cases σ.blocks.getD a none <;> rfl

theorem adjustBlock_destroyed (σ : Sys) (a : Nat) (de dr : Int) :
    (adjustBlock σ a de dr).destroyed = σ.destroyed := by
  unfold adjustBlock
  cases σ.blocks.getD a none <;> rfl

theorem adjustBlock_recycledEv (σ : Sys) (a : Nat) (de dr : Int) :
    (adjustBlock σ a de dr).recycledEv = σ.recycledEv := by
  unfold adjustBlock
  cases σ.blocks.getD a none <;> rfl

theorem adjustBlock_dtors (σ : Sys) (a : Nat) (de dr : Int) :
    (adjustBlock σ a de dr).dtors = σ.dtors := by
  unfold adjustBlock
  cases σ.blocks.getD a none <;> rfl

theorem adjustBlock_length (σ : Sys) (a : Nat) (de dr : Int) :
    (adjustBlock σ a de dr).blocks.length = σ.blocks.length := by
  unfold adjustBlock
  cases σ.blocks.getD a none <;> simp

theorem adjustBlock_getD_self {σ : Sys} {a : Nat} {b : atomic_ptr_ref}
    (hb : σ.blocks.getD a none = some b) (de dr : Int) :
    (adjustBlock σ a de dr).blocks.getD a none =
      some { b with count := ⟨b.count.ecount + de, b.count.rcount + dr⟩ } := by
  unfold adjustBlock
  rw [hb]
  exact getD_set_self _ _ (lt_length_of_getD hb)

theorem adjustBlock_getD_ne {σ : Sys} {a : Nat} (x : Nat) (hx : x ≠ a)
    (de dr : Int) :
    (adjustBlock σ a de dr).blocks.getD x none = σ.blocks.getD x none := by
  unfold adjustBlock
  cases h : σ.blocks.getD a none with
  | none => rfl
  | some b => exact getD_set_ne _ _ (Ne.symm hx)

theorem blockOK_frame (σ : Sys) (bl : List (Option atomic_ptr_ref))
    (dst : List Nat) (rec : List (Nat × Nat)) (dt : List Nat) (x : Nat)
    (hbx : bl.getD x none = σ.blocks.getD x none) (hOK : blockOK σ x) :
    blockOK ⟨bl, σ.handles, σ.slots, dst, rec, dt⟩ x := by
  unfold blockOK at hOK ⊢
  dsimp only
  rw [hbx]
  exact hOK

theorem handleOK_frame (σ : Sys) (bl : List (Option atomic_ptr_ref))
    (dst : List Nat) (rec : List (Nat × Nat)) (dt : List Nat) {a : Nat}
    (hlive : ∀ x, x ≠ a → liveB σ x → bl.getD x none ≠ none)
    (hno : (∀ v ∈ σ.handles, v ≠ some (some a)) ∨ bl.getD a none ≠ none)
    (h : Nat) (hOK : handleOK σ h) :
    handleOK ⟨bl, σ.handles, σ.slots, dst, rec, dt⟩ h := by
  unfold handleOK at hOK ⊢
  dsimp only
  cases hcell : σ.handles.getD h none with
  | none => exact trivial
  | some hv =>
    cases hv with
    | none => exact trivial
    | some x =>
      rw [hcell] at hOK
      show bl.getD x none ≠ none
      by_cases hxa : x = a
      · subst hxa
        rcases hno with hno | hno
        · exact absurd rfl (hno _ (mem_of_getD hcell))
        · exact hno
      · exact hlive x hxa hOK

theorem slotOK_frame (σ : Sys) (bl : List (Option atomic_ptr_ref))
    (dst : List Nat) (rec : List (Nat × Nat)) (dt : List Nat) {a : Nat}
    (hlive : ∀ x, x ≠ a → liveB σ x → bl.getD x none ≠ none)
    (hno : (∀ v ∈ σ.slots, slotHit a v = false) ∨ bl.getD a none ≠ none)
    (s : Nat) (hOK : slotOK σ s) :
    slotOK ⟨bl, σ.handles, σ.slots, dst, rec, dt⟩ s := by
  unfold slotOK at hOK ⊢
  dsimp only
  cases hcell : σ.slots.getD s none with
  | none => exact trivial
  | some sl =>
    rw [hcell] at hOK
    simp only [optAll_some] at hOK ⊢
    cases hptr : sl.ptr with
    | none => exact trivial
    | some x =>
      rw [hptr] at hOK
      show bl.getD x none ≠ none
      by_cases hxa : x = a
      · subst hxa
        rcases hno with hno | hno
        · have := hno _ (mem_of_getD hcell)
          simp [slotHit, hptr] at this
        · exact hno
      · exact hlive x hxa hOK

theorem set_live_away (σ : Sys) (v : Option atomic_ptr_ref) {a : Nat} :
    ∀ x, x ≠ a → liveB σ x → (σ.blocks.set a v).getD x none ≠ none := by
  intro x hxa hl
  rw [getD_set_ne _ _ (Ne.symm hxa)]
  exact hl

theorem set_live_self (σ : Sys) (c : atomic_ptr_ref) {a : Nat}
    (ha : a < σ.blocks.length) :
    (σ.blocks.set a (some c)).getD a none ≠ none := by
  rw [getD_set_self _ _ ha]
  exact fun hcon => Option.noConfusion hcon

theorem destroyedOK_set {σ : Sys} {a : Nat} {b : atomic_ptr_ref}
    (hb : σ.blocks.getD a none = some b) (v : Option atomic_ptr_ref)
    (hD : ∀ x ∈ σ.destroyed, x < σ.blocks.length ∧ σ.blocks.getD x none = none) :
    ∀ x ∈ σ.destroyed,
      x < (σ.blocks.set a v).length ∧ (σ.blocks.set a v).getD x none = none := by
  intro x hx
  have hold := hD x hx
  have hxa : x ≠ a := fun hxeq => by
    rw [hxeq, hb] at hold
    exact Option.noConfusion hold.2
  refine ⟨by simpa using hold.1, ?_⟩
  rw [getD_set_ne _ _ (Ne.symm hxa)]
  exact hold.2

theorem inv_releaseAt {σ : Sys} {a : Nat} {de dr : Int} {b : atomic_ptr_ref}
    (hb : σ.blocks.getD a none = some b)
    (hE : b.count.ecount + de + Ksum σ.slots a = (Hcount σ.handles a : Int))
    (hR : b.count.rcount + dr = (Scount σ.slots a : Int))
    (hIE : InvExcept σ a) :
    Inv (releaseAt σ a de dr) := by
  obtain ⟨hB, hH, hS, hND, hD⟩ := hIE
  have haLen : a < σ.blocks.length := lt_length_of_getD hb
  have haND : a ∉ σ.destroyed := fun hmem => by
    have := (hD a hmem).2
    rw [hb] at this
    exact Option.noConfusion this
  unfold releaseAt
  rw [hb]
  simp only [adjustSeq]
  by_cases hz : b.count.ecount + de = 0 ∧ b.count.rcount + dr = 0
  · -- the pair dropped to (0,0): nobody references the block any more
    have hS0 : Scount σ.slots a = 0 := by
      have : (Scount σ.slots a : Int) = 0 := by omega
      exact_mod_cast this
    have hK0 : Ksum σ.slots a = 0 := Ksum_eq_zero_of_Scount _ _ hS0
    have hH0 : Hcount σ.handles a = 0 := by
      have : (Hcount σ.handles a : Int) = 0 := by omega
      exact_mod_cast this
    have hHnone : ∀ v ∈ σ.handles, v ≠ some (some a) :=
      (Hcount_eq_zero_iff _ _).1 hH0
    have hSnone : ∀ v ∈ σ.slots, slotHit a v = false :=
      (Scount_eq_zero_iff _ _).1 hS0
    rw [if_pos (by simp [hz])]
    cases b.pool with
    | none =>
      -- delete refptr: payload destructed, block freed
      dsimp only
      refine ⟨?_, ?_, ?_, ?_, ?_⟩
      · intro x hx
        simp only [List.length_set] at hx
        by_cases hxa : x = a
        · subst hxa
          unfold blockOK
          dsimp only
          rw [getD_set_self _ _ haLen]
          exact trivial
        · exact blockOK_frame σ _ _ _ _ x (getD_set_ne _ _ (Ne.symm hxa))
            (hB x hx hxa)
      · intro h hh
        exact handleOK_frame σ _ _ _ _ (set_live_away σ none) (Or.inl hHnone)
          h (hH h (by simpa using hh))
      · intro s hs
        exact slotOK_frame σ _ _ _ _ (set_live_away σ none) (Or.inl hSnone)
          s (hS s (by simpa using hs))
      · simp [List.nodup_append, hND, haND]
      · intro x hx
        rcases List.mem_append.1 hx with hx | hx
        · exact destroyedOK_set hb none hD x hx
        · have hxa : x = a := by simpa using hx
          subst hxa
          exact ⟨by simpa using haLen, getD_set_self _ _ haLen⟩
    | some f =>
      -- hand the quiescent block to the recycling pool; it stays allocated
      dsimp only
      refine ⟨?_, ?_, ?_, hND, ?_⟩
      · intro x hx
        simp only [List.length_set] at hx
        by_cases hxa : x = a
        · subst hxa
          unfold blockOK
          dsimp only
          rw [getD_set_self _ _ haLen]
          refine ⟨?_, ?_⟩
          · simp only [hK0, hH0]
            omega
          · simp only [hS0]
            omega
        · exact blockOK_frame σ _ _ _ _ x (getD_set_ne _ _ (Ne.symm hxa))
            (hB x hx hxa)
      · intro h hh
        exact handleOK_frame σ _ _ _ _ (set_live_away σ _)
          (Or.inr (set_live_self σ _ haLen)) h (hH h (by simpa using hh))
      · intro s hs
        exact slotOK_frame σ _ _ _ _ (set_live_away σ _)
          (Or.inr (set_live_self σ _ haLen)) s (hS s (by simpa using hs))
      · exact destroyedOK_set hb _ hD
  · -- the pair is still away from (0,0): only the counters change
    rw [if_neg (by simp [hz])]
    refine ⟨?_, ?_, ?_, hND, ?_⟩
    · intro x hx
      simp only [List.length_set] at hx
      by_cases hxa : x = a
      · subst hxa
        unfold blockOK
        dsimp only
        rw [getD_set_self _ _ haLen]
        exact ⟨by simpa using hE, by simpa using hR⟩
      · exact blockOK_frame σ _ _ _ _ x (getD_set_ne _ _ (Ne.symm hxa))
          (hB x hx hxa)
    · intro h hh
      exact handleOK_frame σ _ _ _ _ (set_live_away σ _)
        (Or.inr (set_live_self σ _ haLen)) h (hH h (by simpa using hh))
    · intro s hs
      exact slotOK_frame σ _ _ _ _ (set_live_away σ _)
        (Or.inr (set_live_self σ _ haLen)) s (hS s (by simpa using hs))
    · exact destroyedOK_set hb _ hD

theorem handleHit_cell_none (a : Nat) : handleHit a none = false := rfl

theorem handleHit_cell_empty (a : Nat) : handleHit a (some none) = false := by
  simp [handleHit]

theorem handleHit_cell_some (a x : Nat) :
    handleHit a (some (some x)) = decide (x = a) := by
  simp [handleHit]

theorem slotHit_cell_none (a : Nat) : slotHit a none = false := rfl

theorem slotHit_cell_some (a : Nat) (sl : ref) :
    slotHit a (some sl) = decide (sl.ptr = some a) := rfl

theorem slotKey_cell_none (a : Nat) : slotKey a none = 0 := rfl

theorem slotKey_cell_some (a : Nat) (sl : ref) :
    slotKey a (some sl) = if sl.ptr = some a then sl.ecount else 0 := rfl

theorem Hcount_fresh (σ : Sys)
    (hH : ∀ h, h < σ.handles.length → handleOK σ h) :
    Hcount σ.handles σ.blocks.length = 0 := by
  rw [Hcount_eq_zero_iff]
  intro v hv hveq
  subst hveq
  rcases List.getElem_of_mem hv with ⟨i, hi, hcell⟩
  have hOK := hH i hi
  unfold handleOK at hOK
  rw [List.getD_eq_getElem _ _ hi, hcell] at hOK
  have : σ.blocks.getD σ.blocks.length none ≠ none := hOK
  rw [List.getD_eq_default _ _ (Nat.le_refl _)] at this
  exact this rfl

theorem Scount_fresh (σ : Sys)
    (hS : ∀ s, s < σ.slots.length → slotOK σ s) :
    Scount σ.slots σ.blocks.length = 0 := by
  rw [Scount_eq_zero_iff]
  intro v hv
  rcases List.getElem_of_mem hv with ⟨i, hi, hcell⟩
  have hOK := hS i hi
  unfold slotOK at hOK
  rw [List.getD_eq_getElem _ _ hi, hcell] at hOK
  cases v with
  | none => rfl
  | some sl =>
    simp only [optAll_some] at hOK
    rw [slotHit_cell_some]
    cases hptr : sl.ptr with
    | none => simp
    | some x =>
      rw [hptr] at hOK
      have hx : x ≠ σ.blocks.length := by
        intro hxeq
        subst hxeq
        have : σ.blocks.getD σ.blocks.length none ≠ none := hOK
        rw [List.getD_eq_default _ _ (Nat.le_refl _)] at this
        exact this rfl
      simp [hx]

theorem handleOK_all_append (σ : Sys) (bl : List (Option atomic_ptr_ref))
    (sl : List (Option ref)) (dst : List Nat) (rec : List (Nat × Nat))
    (dt : List Nat) (v : Option (Option Nat))
    (hlive : ∀ x, liveB σ x → bl.getD x none ≠ none)
    (hv : optAll (optAll (fun x => bl.getD x none ≠ none)) v)
    (hH : ∀ h, h < σ.handles.length → handleOK σ h) :
    ∀ h, h < (σ.handles ++ [v]).length →
      handleOK ⟨bl, σ.handles ++ [v], sl, dst, rec, dt⟩ h := by
  intro h hh
  unfold handleOK
  dsimp only
  by_cases hlt : h < σ.handles.length
  · rw [getD_append_lt _ _ hlt]
    have hOK := hH h hlt
    unfold handleOK at hOK
    cases hcell : σ.handles.getD h none with
    | none => exact trivial
    | some hv2 =>
      rw [hcell] at hOK
      cases hv2 with
      | none => exact trivial
      | some x => exact hlive x hOK
  · have hlen : h = σ.handles.length := by
      simp only [List.length_append, List.length_cons, List.length_nil] at hh
      omega
    subst hlen
    rw [getD_append_len]
    cases v with
    | none => exact trivial
    | some w =>
      cases w with
      | none => exact trivial
      | some x => exact hv

theorem slotOK_all_append (σ : Sys) (bl : List (Option atomic_ptr_ref))
    (hs : List (Option (Option Nat))) (dst : List Nat) (rec : List (Nat × Nat))
    (dt : List Nat) (v : Option ref)
    (hlive : ∀ x, liveB σ x → bl.getD x none ≠ none)
    (hv : optAll (fun w => optAll (fun x => bl.getD x none ≠ none) w.ptr) v)
    (hS : ∀ s, s < σ.slots.length → slotOK σ s) :
    ∀ s, s < (σ.slots ++ [v]).length →
      slotOK ⟨bl, hs, σ.slots ++ [v], dst, rec, dt⟩ s := by
  intro s hslt
  unfold slotOK
  dsimp only
  by_cases hlt : s < σ.slots.length
  · rw [getD_append_lt _ _ hlt]
    have hOK := hS s hlt
    unfold slotOK at hOK
    cases hcell : σ.slots.getD s none with
    | none => exact trivial
    | some sv =>
      rw [hcell] at hOK
      simp only [optAll_some] at hOK ⊢
      cases hptr : sv.ptr with
      | none => exact trivial
      | some x =>
        rw [hptr] at hOK
        exact hlive x hOK
  · have hlen : s = σ.slots.length := by
      simp only [List.length_append, List.length_cons, List.length_nil] at hslt
      omega
    subst hlen
    rw [getD_append_len]
    cases v with
    | none => exact trivial
    | some w =>
      simp only [optAll_some] at hv ⊢
      cases hptr : w.ptr with
      | none => exact trivial
      | some x =>
        rw [hptr] at hv
        exact hv

theorem handleOK_all_frame (σ : Sys) (bl : List (Option atomic_ptr_ref))
    (sl : List (Option ref)) (dst : List Nat) (rec : List (Nat × Nat))
    (dt : List Nat)
    (hlive : ∀ x, liveB σ x → bl.getD x none ≠ none)
    (hH : ∀ h, h < σ.handles.length → handleOK σ h) :
    ∀ h, h < σ.handles.length →
      handleOK ⟨bl, σ.handles, sl, dst, rec, dt⟩ h := by
  intro h hh
  unfold handleOK
  dsimp only
  have hOK := hH h hh
  unfold handleOK at hOK
  cases hcell : σ.handles.getD h none with
  | none => exact trivial
  | some hv2 =>
    rw [hcell] at hOK
    cases hv2 with
    | none => exact trivial
    | some x => exact hlive x hOK

theorem slotOK_all_frame (σ : Sys) (bl : List (Option atomic_ptr_ref))
    (hs : List (Option (Option Nat))) (dst : List Nat) (rec : List (Nat × Nat))
    (dt : List Nat)
    (hlive : ∀ x, liveB σ x → bl.getD x none ≠ none)
    (hS : ∀ s, s < σ.slots.length → slotOK σ s) :
    ∀ s, s < σ.slots.length →
      slotOK ⟨bl, hs, σ.slots, dst, rec, dt⟩ s := by
  intro s hslt
  unfold slotOK
  dsimp only
  have hOK := hS s hslt
  unfold slotOK at hOK
  cases hcell : σ.slots.getD s none with
  | none => exact trivial
  | some sv =>
    rw [hcell] at hOK
    simp only [optAll_some] at hOK ⊢
    cases hptr : sv.ptr with
    | none => exact trivial
    | some x =>
      rw [hptr] at hOK
      exact hlive x hOK

theorem destroyedOK_append (σ : Sys) (nb : Option atomic_ptr_ref)
    (hD : ∀ x ∈ σ.destroyed, x < σ.blocks.length ∧ σ.blocks.getD x none = none) :
    ∀ x ∈ σ.destroyed,
      x < (σ.blocks ++ [nb]).length ∧ (σ.blocks ++ [nb]).getD x none = none := by
  intro x hx
  have h := hD x hx
  refine ⟨?_, ?_⟩
  · simp only [List.length_append, List.length_cons, List.length_nil]
    omega
  · rw [getD_append_lt _ _ h.1]
    exact h.2

theorem live_append (σ : Sys) (nb : Option atomic_ptr_ref) :
    ∀ x, liveB σ x → (σ.blocks ++ [nb]).getD x none ≠ none := by
  intro x hl
  unfold liveB at hl
  rw [getD_append_lt _ _ (lt_length_of_getD (Option.ne_none_iff_exists'.1 hl).choose_spec)]
  exact hl

theorem Hcount_append_miss (hs : List (Option (Option Nat))) {x : Nat}
    {v : Option (Option Nat)} (hv : handleHit x v = false) :
    Hcount (hs ++ [v]) x = Hcount hs x := by
  rw [Hcount_append, hv]
  simp

theorem Hcount_append_hit (hs : List (Option (Option Nat))) {x : Nat}
    {v : Option (Option Nat)} (hv : handleHit x v = true) :
    Hcount (hs ++ [v]) x = Hcount hs x + 1 := by
  rw [Hcount_append, hv]
  simp

theorem Scount_append_miss (ss : List (Option ref)) {x : Nat}
    {v : Option ref} (hv : slotHit x v = false) :
    Scount (ss ++ [v]) x = Scount ss x := by
  rw [Scount_append, hv]
  simp

theorem Scount_append_hit (ss : List (Option ref)) {x : Nat}
    {v : Option ref} (hv : slotHit x v = true) :
    Scount (ss ++ [v]) x = Scount ss x + 1 := by
  rw [Scount_append, hv]
  simp

theorem blockOK_counts (σ : Sys) (bl : List (Option atomic_ptr_ref))
    (hs : List (Option (Option Nat))) (sl : List (Option ref)) (dst : List Nat)
    (rec : List (Nat × Nat)) (dt : List Nat) (x : Nat)
    (hbx : bl.getD x none = σ.blocks.getD x none)
    (hHx : Hcount hs x = Hcount σ.handles x)
    (hSx : Scount sl x = Scount σ.slots x)
    (hKx : Ksum sl x = Ksum σ.slots x)
    (hOK : blockOK σ x) : blockOK ⟨bl, hs, sl, dst, rec, dt⟩ x := by
  unfold blockOK at hOK ⊢
  dsimp only
  rw [hbx]
  cases hcell : σ.blocks.getD x none with
  | none => exact trivial
  | some bx =>
    rw [hcell] at hOK
    simp only [optAll_some] at hOK ⊢
    rw [hHx, hSx, hKx]
    exact hOK

theorem blockOK_delta (σ : Sys) (bl : List (Option atomic_ptr_ref))
    (hs : List (Option (Option Nat))) (sl : List (Option ref)) (dst : List Nat)
    (rec : List (Nat × Nat)) (dt : List Nat) (x : Nat) (d : Int)
    (hbx : bl.getD x none = σ.blocks.getD x none)
    (hHx : (Hcount hs x : Int) = Hcount σ.handles x + d)
    (hSx : (Scount sl x : Int) = Scount σ.slots x)
    (hKx : Ksum sl x = Ksum σ.slots x + d)
    (hOK : blockOK σ x) : blockOK ⟨bl, hs, sl, dst, rec, dt⟩ x := by
  unfold blockOK at hOK ⊢
  dsimp only
  rw [hbx]
  cases hcell : σ.blocks.getD x none with
  | none => exact trivial
  | some bx =>
    rw [hcell] at hOK
    simp only [optAll_some] at hOK ⊢
    obtain ⟨h1, h2⟩ := hOK
    refine ⟨?_, ?_⟩
    · rw [hKx, hHx]
      omega
    · rw [hSx]
      exact h2

theorem blockOK_update (bl : List (Option atomic_ptr_ref))
    (hs : List (Option (Option Nat))) (sl : List (Option ref)) (dst : List Nat)
    (rec : List (Nat × Nat)) (dt : List Nat) (a : Nat) (c : atomic_ptr_ref)
    (hba : bl.getD a none = some c)
    (heq : c.count.ecount + Ksum sl a = (Hcount hs a : Int))
    (hreq : c.count.rcount = (Scount sl a : Int)) :
    blockOK ⟨bl, hs, sl, dst, rec, dt⟩ a := by
  unfold blockOK
  dsimp only
  rw [hba]
  exact ⟨heq, hreq⟩

theorem set_some_live (σ : Sys) (c : atomic_ptr_ref) {a : Nat}
    (ha : a < σ.blocks.length) :
    ∀ x, liveB σ x → (σ.blocks.set a (some c)).getD x none ≠ none := by
  intro x hl
  by_cases hxa : x = a
  · subst hxa
    exact set_live_self σ c ha
  · exact set_live_away σ _ x hxa hl

theorem adjustBlock_eq {σ : Sys} {a : Nat} {b : atomic_ptr_ref}
    (hb : σ.blocks.getD a none = some b) (de dr : Int) :
    adjustBlock σ a de dr =
      { σ with blocks := (σ.blocks.set a
          (some { b with count := ⟨b.count.ecount + de, b.count.rcount + dr⟩ })) } := by
  unfold adjustBlock
  rw [hb]
  rfl

theorem inv_op_newLocal (σ : Sys) (p : Option Nat) (hI : Inv σ) :
    Inv (exec σ (.newLocal p)) := by
  obtain ⟨hB, hH, hS, hND, hD⟩ := hI
  cases p with
  | none =>
    refine ⟨?_, ?_, ?_, hND, ?_⟩
    · intro x hx
      exact blockOK_counts σ _ _ _ _ _ _ x rfl
        (Hcount_append_miss _ (handleHit_cell_empty x)) rfl rfl (hB x hx)
    · exact handleOK_all_append σ _ _ _ _ _ _ (fun x hl => hl) trivial hH
    · intro s hs
      exact slotOK_all_frame σ _ _ _ _ _ (fun x hl => hl) hS s (by simpa using hs)
    · exact hD
  | some q =>
    have hfresh : handleHit σ.blocks.length (some (some σ.blocks.length)) = true := by
      simp [handleHit_cell_some]
    refine ⟨?_, ?_, ?_, hND, ?_⟩
    · intro x hx
      replace hx : x < σ.blocks.length + 1 := by simpa [exec] using hx
      by_cases hxa : x = σ.blocks.length
      · subst hxa
        refine blockOK_update _ _ _ _ _ _ _ _ (getD_append_len _ _ _) ?_ ?_
        · rw [Hcount_append_hit _ hfresh, Hcount_fresh σ hH]
          have : Ksum σ.slots σ.blocks.length = 0 :=
            Ksum_eq_zero_of_Scount _ _ (Scount_fresh σ hS)
          rw [this]
          rfl
        · rw [Scount_fresh σ hS]
          rfl
      · have hxlt : x < σ.blocks.length := by omega
        refine blockOK_counts σ _ _ _ _ _ _ x (getD_append_lt _ _ hxlt) ?_ rfl rfl
          (hB x hxlt)
        refine Hcount_append_miss _ ?_
        rw [handleHit_cell_some]
        exact decide_eq_false (Ne.symm hxa)
    · refine handleOK_all_append σ _ _ _ _ _ _ (live_append σ _) ?_ hH
      simp only [optAll_some]
      rw [getD_append_len]
      exact fun hcon => Option.noConfusion hcon
    · intro s hs
      exact slotOK_all_frame σ _ _ _ _ _ (live_append σ _) hS s (by simpa using hs)
    · exact destroyedOK_append σ _ hD

theorem inv_op_newAtomic (σ : Sys) (p : Option Nat) (hI : Inv σ) :
    Inv (exec σ (.newAtomic p)) := by
  obtain ⟨hB, hH, hS, hND, hD⟩ := hI
  cases p with
  | none =>
    refine ⟨?_, ?_, ?_, hND, ?_⟩
    · intro x hx
      refine blockOK_counts σ _ _ _ _ _ _ x rfl rfl
        (Scount_append_miss _ ?_) ?_ (hB x hx)
      · simp [slotHit_cell_some]
      · rw [Ksum_append]
        simp [slotKey_cell_some]
    · intro h hh
      exact handleOK_all_frame σ _ _ _ _ _ (fun x hl => hl) hH h (by simpa using hh)
    · exact slotOK_all_append σ _ _ _ _ _ _ (fun x hl => hl) trivial hS
    · exact hD
  | some q =>
    have hfresh : slotHit σ.blocks.length (some ⟨0, some σ.blocks.length⟩) = true := by
      simp [slotHit_cell_some]
    refine ⟨?_, ?_, ?_, hND, ?_⟩
    · intro x hx
      replace hx : x < σ.blocks.length + 1 := by simpa [exec] using hx
      by_cases hxa : x = σ.blocks.length
      · subst hxa
        refine blockOK_update _ _ _ _ _ _ _ _ (getD_append_len _ _ _) ?_ ?_
        · rw [Hcount_fresh σ hH, Ksum_append,
            Ksum_eq_zero_of_Scount _ _ (Scount_fresh σ hS)]
          simp [slotKey_cell_some, newBlock]
        · rw [Scount_append_hit _ hfresh, Scount_fresh σ hS]
          rfl
      · have hxlt : x < σ.blocks.length := by omega
        refine blockOK_counts σ _ _ _ _ _ _ x (getD_append_lt _ _ hxlt)
          rfl ?_ ?_ (hB x hxlt)
        · refine Scount_append_miss _ ?_
          rw [slotHit_cell_some]
          exact decide_eq_false (fun hcon => hxa (Option.some.inj hcon).symm)
        · rw [Ksum_append, slotKey_cell_some]
          simp only [ite_self, add_zero]
    · intro h hh
      exact handleOK_all_frame σ _ _ _ _ _ (live_append σ _) hH h (by simpa using hh)
    · refine slotOK_all_append σ _ _ _ _ _ _ (live_append σ _) ?_ hS
      simp only [optAll_some]
      rw [getD_append_len]
      exact fun hcon => Option.noConfusion hcon
    · exact destroyedOK_append σ _ hD

theorem Scount_set_same (ss : List (Option ref)) {s : Nat} {sl : ref}
    (hcell : ss.getD s none = some sl) (ec : Int) (x : Nat) :
    Scount (ss.set s (some ⟨ec, sl.ptr⟩)) x = Scount ss x := by
  have hlen := lt_length_of_getD hcell
  have h := Scount_set (some (ref.mk ec sl.ptr)) x hlen
  rw [hcell] at h
  have hsame : slotHit x (some (ref.mk ec sl.ptr)) = slotHit x (some sl) := rfl
  rw [hsame] at h
  omega

theorem Ksum_set_bump (ss : List (Option ref)) {s : Nat} {sl : ref}
    (hcell : ss.getD s none = some sl) (ec : Int) (x : Nat) :
    Ksum (ss.set s (some ⟨ec, sl.ptr⟩)) x =
      Ksum ss x + (if sl.ptr = some x then ec - sl.ecount else 0) := by
  have hlen := lt_length_of_getD hcell
  rw [Ksum_set _ _ hlen, hcell]
  have h1 : slotKey x (some (ref.mk ec sl.ptr)) = if sl.ptr = some x then ec else 0 := rfl
  have h2 : slotKey x (some sl) = if sl.ptr = some x then sl.ecount else 0 := rfl
  rw [h1, h2]
  by_cases hp : sl.ptr = some x <;> simp [hp] <;> ring

theorem handleHit_ptr_miss {x : Nat} {p : Option Nat} (hp : p ≠ some x) :
    handleHit x (some p) = false := by
  cases hsp : p with
  | none => exact handleHit_cell_empty x
  | some w =>
    rw [handleHit_cell_some]
    refine decide_eq_false ?_
    intro hc
    rw [hsp, hc] at hp
    exact hp rfl

theorem inv_op_copyLocal (σ : Sys) (h0 : Nat) (hI : Inv σ) :
    Inv (exec σ (.copyLocal h0)) := by
  obtain ⟨hB, hH, hS, hND, hD⟩ := hI
  simp only [exec]
  cases hcell : σ.handles.getD h0 none with
  | none => exact ⟨hB, hH, hS, hND, hD⟩
  | some hv =>
    cases hv with
    | none =>
      refine ⟨?_, ?_, ?_, hND, ?_⟩
      · intro x hx
        exact blockOK_counts σ _ _ _ _ _ _ x rfl
          (Hcount_append_miss _ (handleHit_cell_empty x)) rfl rfl
          (hB x (by simpa using hx))
      · exact handleOK_all_append σ _ _ _ _ _ _ (fun x hl => hl) trivial hH
      · intro s hs
        exact slotOK_all_frame σ _ _ _ _ _ (fun x hl => hl) hS s (by simpa using hs)
      · exact hD
    | some a =>
      have hOKh := hH h0 (lt_length_of_getD hcell)
      unfold handleOK at hOKh
      rw [hcell] at hOKh
      have hlv : σ.blocks.getD a none ≠ none := hOKh
      obtain ⟨b, hb⟩ := Option.ne_none_iff_exists'.1 hlv
      have haLen : a < σ.blocks.length := lt_length_of_getD hb
      dsimp only
      rw [adjustBlock_eq hb 1 0]
      have hOKa := hB a haLen
      unfold blockOK at hOKa
      rw [hb] at hOKa
      simp only [optAll_some] at hOKa
      obtain ⟨h1, h2⟩ := hOKa
      refine ⟨?_, ?_, ?_, hND, ?_⟩
      · intro x hx
        replace hx : x < σ.blocks.length := by simpa using hx
        by_cases hxa : x = a
        · subst hxa
          refine blockOK_update _ _ _ _ _ _ _ _ (getD_set_self _ _ haLen) ?_ ?_
          · rw [Hcount_append_hit _ (by simp [handleHit_cell_some])]
            show b.count.ecount + 1 + Ksum σ.slots x = _
            push_cast
            omega
          · show b.count.rcount + 0 = (Scount σ.slots x : Int)
            omega
        · refine blockOK_counts σ _ _ _ _ _ _ x (getD_set_ne _ _ (Ne.symm hxa))
            ?_ rfl rfl (hB x hx)
          refine Hcount_append_miss _ ?_
          rw [handleHit_cell_some]
          exact decide_eq_false (fun hc => hxa hc.symm)
      · refine handleOK_all_append σ _ _ _ _ _ _ (set_some_live σ _ haLen) ?_ hH
        simp only [optAll_some]
        exact set_live_self σ _ haLen
      · intro s hs
        exact slotOK_all_frame σ _ _ _ _ _ (set_some_live σ _ haLen) hS s
          (by simpa using hs)
      · exact destroyedOK_set hb _ hD

theorem inv_op_pinLocal (σ : Sys) (s0 : Nat) (hI : Inv σ) :
    Inv (exec σ (.pinLocal s0)) := by
  obtain ⟨hB, hH, hS, hND, hD⟩ := hI
  simp only [exec]
  cases hcell : σ.slots.getD s0 none with
  | none => exact ⟨hB, hH, hS, hND, hD⟩
  | some sl =>
    have hslen : s0 < σ.slots.length := lt_length_of_getD hcell
    have hOKs := hS s0 hslen
    unfold slotOK at hOKs
    rw [hcell] at hOKs
    simp only [optAll_some] at hOKs
    refine ⟨?_, ?_, ?_, hND, ?_⟩
    · intro x hx
      replace hx : x < σ.blocks.length := by simpa using hx
      by_cases hp : sl.ptr = some x
      · refine blockOK_delta σ _ _ _ _ _ _ x 1 rfl ?_ ?_ ?_ (hB x hx)
        · rw [Hcount_append_hit _ (by rw [hp, handleHit_cell_some]; simp)]
          push_cast
          ring
        · rw [Scount_set_same _ hcell]
        · rw [Ksum_set_bump _ hcell, hp]
          simp
      · refine blockOK_delta σ _ _ _ _ _ _ x 0 rfl ?_ ?_ ?_ (hB x hx)
        · rw [Hcount_append_miss _ (handleHit_ptr_miss hp)]
          push_cast
          ring
        · rw [Scount_set_same _ hcell]
        · rw [Ksum_set_bump _ hcell]
          simp [hp]
    · refine handleOK_all_append σ _ _ _ _ _ _ (fun x hl => hl) ?_ hH
      cases hsp : sl.ptr with
      | none => exact trivial
      | some a =>
        simp only [optAll_some]
        rw [hsp] at hOKs
        exact hOKs
    · intro s hs
      replace hs : s < σ.slots.length := by simpa using hs
      unfold slotOK
      dsimp only
      by_cases hss : s = s0
      · subst hss
        rw [getD_set_self _ _ hslen]
        simp only [optAll_some]
        exact hOKs
      · rw [getD_set_ne _ _ (Ne.symm hss)]
        have hOKs2 := hS s hs
        unfold slotOK at hOKs2
        exact hOKs2
    · exact hD

theorem inv_op_recycleLocal (σ : Sys) (a : Nat) (hI : Inv σ) :
    Inv (exec σ (.recycleLocal a)) := by
  obtain ⟨hB, hH, hS, hND, hD⟩ := hI
  simp only [exec]
  cases hb : σ.blocks.getD a none with
  | none => exact ⟨hB, hH, hS, hND, hD⟩
  | some b =>
    dsimp only
    by_cases hq : b.count.ecount = 0 ∧ b.count.rcount = 0
    · rw [if_pos hq]
      have haLen : a < σ.blocks.length := lt_length_of_getD hb
      have hOKa := hB a haLen
      unfold blockOK at hOKa
      rw [hb] at hOKa
      simp only [optAll_some] at hOKa
      obtain ⟨h1, h2⟩ := hOKa
      have hS0 : Scount σ.slots a = 0 := by omega
      have hK0 : Ksum σ.slots a = 0 := Ksum_eq_zero_of_Scount _ _ hS0
      have hH0 : Hcount σ.handles a = 0 := by
        have : (Hcount σ.handles a : Int) = 0 := by omega
        exact_mod_cast this
      refine ⟨?_, ?_, ?_, hND, ?_⟩
      · intro x hx
        replace hx : x < σ.blocks.length := by simpa using hx
        by_cases hxa : x = a
        · subst hxa
          refine blockOK_update _ _ _ _ _ _ _ _ (getD_set_self _ _ haLen) ?_ ?_
          · rw [Hcount_append_hit _ (by simp [handleHit_cell_some]), hH0, hK0]
            rfl
          · rw [hS0]
            rfl
        · refine blockOK_counts σ _ _ _ _ _ _ x (getD_set_ne _ _ (Ne.symm hxa))
            ?_ rfl rfl (hB x hx)
          refine Hcount_append_miss _ ?_
          rw [handleHit_cell_some]
          exact decide_eq_false (fun hc => hxa hc.symm)
      · refine handleOK_all_append σ _ _ _ _ _ _ (set_some_live σ _ haLen) ?_ hH
        simp only [optAll_some]
        exact set_live_self σ _ haLen
      · intro s hs
        exact slotOK_all_frame σ _ _ _ _ _ (set_some_live σ _ haLen) hS s
          (by simpa using hs)
      · exact destroyedOK_set hb _ hD
    · rw [if_neg hq]
      exact ⟨hB, hH, hS, hND, hD⟩

theorem slotHit_pair_miss {x : Nat} (ec : Int) {p : Option Nat}
    (hp : p ≠ some x) : slotHit x (some ⟨ec, p⟩) = false := by
  rw [slotHit_cell_some]
  exact decide_eq_false hp

theorem inv_op_fromLocalAtomic (σ : Sys) (h0 : Nat) (hI : Inv σ) :
    Inv (exec σ (.fromLocalAtomic h0)) := by
  obtain ⟨hB, hH, hS, hND, hD⟩ := hI
  simp only [exec]
  cases hcell : σ.handles.getD h0 none with
  | none => exact ⟨hB, hH, hS, hND, hD⟩
  | some hv =>
    cases hv with
    | none =>
      refine ⟨?_, ?_, ?_, hND, ?_⟩
      · intro x hx
        refine blockOK_counts σ _ _ _ _ _ _ x rfl rfl
          (Scount_append_miss _ ?_) ?_ (hB x (by simpa using hx))
        · exact slotHit_pair_miss 0 (fun hcon => Option.noConfusion hcon)
        · rw [Ksum_append]
          have : slotKey x (some (ref.mk 0 none)) = 0 := rfl
          rw [this, add_zero]
      · intro h hh
        exact handleOK_all_frame σ _ _ _ _ _ (fun x hl => hl) hH h (by simpa using hh)
      · exact slotOK_all_append σ _ _ _ _ _ _ (fun x hl => hl) trivial hS
      · exact hD
    | some a =>
      have hOKh := hH h0 (lt_length_of_getD hcell)
      unfold handleOK at hOKh
      rw [hcell] at hOKh
      have hlv : σ.blocks.getD a none ≠ none := hOKh
      obtain ⟨b, hb⟩ := Option.ne_none_iff_exists'.1 hlv
      have haLen : a < σ.blocks.length := lt_length_of_getD hb
      dsimp only
      rw [adjustBlock_eq hb 0 1]
      dsimp only
      have hOKa := hB a haLen
      unfold blockOK at hOKa
      rw [hb] at hOKa
      simp only [optAll_some] at hOKa
      obtain ⟨h1, h2⟩ := hOKa
      refine ⟨?_, ?_, ?_, hND, ?_⟩
      · intro x hx
        replace hx : x < σ.blocks.length := by simpa using hx
        by_cases hxa : x = a
        · subst hxa
          refine blockOK_update _ _ _ _ _ _ _ _ (getD_set_self _ _ haLen) ?_ ?_
          · rw [Ksum_append]
            have h0 : slotKey x (some (ref.mk 0 (some x))) = 0 := by
              rw [slotKey_cell_some]
              simp
            rw [h0]
            show b.count.ecount + 0 + (Ksum σ.slots x + 0) = (Hcount σ.handles x : Int)
            omega
          · rw [Scount_append_hit _ (by rw [slotHit_cell_some]; simp)]
            show b.count.rcount + 1 = _
            push_cast
            omega
        · refine blockOK_counts σ _ _ _ _ _ _ x (getD_set_ne _ _ (Ne.symm hxa))
            rfl (Scount_append_miss _ ?_) ?_ (hB x hx)
          · exact slotHit_pair_miss 0 (fun hc => hxa (Option.some.inj hc).symm)
          · rw [Ksum_append, slotKey_cell_some]
            simp only [ite_self, add_zero]
      · intro h hh
        exact handleOK_all_frame σ _ _ _ _ _ (set_some_live σ _ haLen) hH h
          (by simpa using hh)
      · refine slotOK_all_append σ _ _ _ _ _ _ (set_some_live σ _ haLen) ?_ hS
        simp only [optAll_some]
        exact set_live_self σ _ haLen
      · exact destroyedOK_set hb _ hD

theorem inv_op_recycleAtomic (σ : Sys) (a : Nat) (hI : Inv σ) :
    Inv (exec σ (.recycleAtomic a)) := by
  obtain ⟨hB, hH, hS, hND, hD⟩ := hI
  simp only [exec]
  cases hb : σ.blocks.getD a none with
  | none => exact ⟨hB, hH, hS, hND, hD⟩
  | some b =>
    dsimp only
    by_cases hq : b.count.ecount = 0 ∧ b.count.rcount = 0
    · rw [if_pos hq]
      have haLen : a < σ.blocks.length := lt_length_of_getD hb
      have hOKa := hB a haLen
      unfold blockOK at hOKa
      rw [hb] at hOKa
      simp only [optAll_some] at hOKa
      obtain ⟨h1, h2⟩ := hOKa
      have hS0 : Scount σ.slots a = 0 := by omega
      have hK0 : Ksum σ.slots a = 0 := Ksum_eq_zero_of_Scount _ _ hS0
      have hH0 : Hcount σ.handles a = 0 := by
        have : (Hcount σ.handles a : Int) = 0 := by omega
        exact_mod_cast this
      refine ⟨?_, ?_, ?_, hND, ?_⟩
      · intro x hx
        replace hx : x < σ.blocks.length := by simpa using hx
        by_cases hxa : x = a
        · subst hxa
          refine blockOK_update _ _ _ _ _ _ _ _ (getD_set_self _ _ haLen) ?_ ?_
          · rw [Ksum_append]
            have : slotKey x (some (ref.mk 0 (some x))) = 0 := by
              rw [slotKey_cell_some]
              simp
            rw [this, add_zero, hK0, hH0]
            rfl
          · rw [Scount_append_hit _ (by rw [slotHit_cell_some]; simp), hS0]
            rfl
        · refine blockOK_counts σ _ _ _ _ _ _ x (getD_set_ne _ _ (Ne.symm hxa))
            rfl (Scount_append_miss _ ?_) ?_ (hB x hx)
          · exact slotHit_pair_miss 0 (fun hc => hxa (Option.some.inj hc).symm)
          · rw [Ksum_append, slotKey_cell_some]
            simp only [ite_self, add_zero]
      · intro h hh
        exact handleOK_all_frame σ _ _ _ _ _ (set_some_live σ _ haLen) hH h
          (by simpa using hh)
      · refine slotOK_all_append σ _ _ _ _ _ _ (set_some_live σ _ haLen) ?_ hS
        simp only [optAll_some]
        exact set_live_self σ _ haLen
      · exact destroyedOK_set hb _ hD
    · rw [if_neg hq]
      exact ⟨hB, hH, hS, hND, hD⟩

theorem slotOK_all_set_append (σ : Sys) (bl : List (Option atomic_ptr_ref))
    (hs : List (Option (Option Nat))) (dst : List Nat) (rec : List (Nat × Nat))
    (dt : List Nat) {s0 : Nat} {sl : ref} (hcell : σ.slots.getD s0 none = some sl)
    (ec : Int) (v : Option ref)
    (hlive : ∀ x, liveB σ x → bl.getD x none ≠ none)
    (hv : optAll (fun w => optAll (fun x => bl.getD x none ≠ none) w.ptr) v)
    (hS : ∀ s, s < σ.slots.length → slotOK σ s) :
    ∀ s, s < ((σ.slots.set s0 (some ⟨ec, sl.ptr⟩)) ++ [v]).length →
      slotOK ⟨bl, hs, (σ.slots.set s0 (some ⟨ec, sl.ptr⟩)) ++ [v], dst, rec, dt⟩ s := by
  intro s hslt
  have hs0len : s0 < σ.slots.length := lt_length_of_getD hcell
  unfold slotOK
  dsimp only
  by_cases hlt : s < σ.slots.length
  · rw [getD_append_lt _ _ (by simpa using hlt)]
    by_cases hss : s = s0
    · subst hss
      rw [getD_set_self _ _ hs0len]
      simp only [optAll_some]
      have hOKs := hS s hs0len
      unfold slotOK at hOKs
      rw [hcell] at hOKs
      simp only [optAll_some] at hOKs
      show optAll _ sl.ptr
      cases hptr : sl.ptr with
      | none => exact trivial
      | some x =>
        rw [hptr] at hOKs
        exact hlive x hOKs
    · rw [getD_set_ne _ _ (Ne.symm hss)]
      have hOKs := hS s hlt
      unfold slotOK at hOKs
      cases hcell2 : σ.slots.getD s none with
      | none => exact trivial
      | some sv =>
        rw [hcell2] at hOKs
        simp only [optAll_some] at hOKs ⊢
        cases hptr : sv.ptr with
        | none => exact trivial
        | some x =>
          rw [hptr] at hOKs
          exact hlive x hOKs
  · have hlen : s = σ.slots.length := by
      simp only [List.length_append, List.length_set, List.length_cons,
        List.length_nil] at hslt
      omega
    have : ((σ.slots.set s0 (some (ref.mk ec sl.ptr))) ++ [v]).getD s none = v := by
      rw [hlen]
      have hsetlen : (σ.slots.set s0 (some (ref.mk ec sl.ptr))).length = σ.slots.length :=
        List.length_set ..
      rw [show σ.slots.length = (σ.slots.set s0 (some (ref.mk ec sl.ptr))).length from hsetlen.symm]
      exact getD_append_len _ _ _
    rw [this]
    cases v with
    | none => exact trivial
    | some w =>
      simp only [optAll_some] at hv ⊢
      cases hptr : w.ptr with
      | none => exact trivial
      | some x =>
        rw [hptr] at hv
        exact hv

theorem inv_op_copyAtomic (σ : Sys) (s0 : Nat) (hI : Inv σ) :
    Inv (exec σ (.copyAtomic s0)) := by
  obtain ⟨hB, hH, hS, hND, hD⟩ := hI
  simp only [exec]
  cases hcell : σ.slots.getD s0 none with
  | none => exact ⟨hB, hH, hS, hND, hD⟩
  | some sl =>
    obtain ⟨sec, sptr⟩ := sl
    have hslen : s0 < σ.slots.length := lt_length_of_getD hcell
    have hOKs := hS s0 hslen
    unfold slotOK at hOKs
    rw [hcell] at hOKs
    simp only [optAll_some] at hOKs
    dsimp only
    cases sptr with
    | none =>
      dsimp only
      refine ⟨?_, ?_, ?_, hND, ?_⟩
      · intro x hx
        replace hx : x < σ.blocks.length := by simpa using hx
        refine blockOK_counts σ _ _ _ _ _ _ x rfl rfl ?_ ?_ (hB x hx)
        · rw [Scount_append_miss _ (slotHit_pair_miss 0 (fun hc => Option.noConfusion hc))]
          exact Scount_set_same σ.slots hcell (sec + 1) x
        · rw [Ksum_append]
          have h0 : slotKey x (some (ref.mk 0 none)) = 0 := rfl
          rw [h0, add_zero]
          have hk : Ksum (σ.slots.set s0 (some (ref.mk (sec + 1) none))) x =
              Ksum σ.slots x + (if (none : Option Nat) = some x then sec + 1 - sec else 0) :=
            Ksum_set_bump σ.slots hcell (sec + 1) x
          rw [hk]
          simp
      · intro h hh
        exact handleOK_all_frame σ _ _ _ _ _ (fun x hl => hl) hH h (by simpa using hh)
      · exact slotOK_all_set_append σ _ _ _ _ _ hcell (sec + 1) (some ⟨0, none⟩)
          (fun x hl => hl) trivial hS
      · exact hD
    | some a =>
      dsimp only
      simp only [optAll_some] at hOKs
      obtain ⟨b, hb⟩ := Option.ne_none_iff_exists'.1 hOKs
      have haLen : a < σ.blocks.length := lt_length_of_getD hb
      have hb2 : (Sys.mk σ.blocks σ.handles
          (σ.slots.set s0 (some ⟨sec + 1, some a⟩)) σ.destroyed σ.recycledEv
          σ.dtors).blocks.getD a none = some b := hb
      rw [adjustBlock_eq hb2 (-1) 1]
      dsimp only
      have hOKa := hB a haLen
      unfold blockOK at hOKa
      rw [hb] at hOKa
      simp only [optAll_some] at hOKa
      obtain ⟨h1, h2⟩ := hOKa
      have hsc : ∀ x, Scount (σ.slots.set s0 (some (ref.mk (sec + 1) (some a)))) x =
          Scount σ.slots x := fun x => Scount_set_same σ.slots hcell (sec + 1) x
      have hk : ∀ x, Ksum (σ.slots.set s0 (some (ref.mk (sec + 1) (some a)))) x =
          Ksum σ.slots x + (if some a = some x then sec + 1 - sec else 0) :=
        fun x => Ksum_set_bump σ.slots hcell (sec + 1) x
      refine ⟨?_, ?_, ?_, hND, ?_⟩
      · intro x hx
        replace hx : x < σ.blocks.length := by simpa using hx
        by_cases hxa : x = a
        · subst hxa
          refine blockOK_update _ _ _ _ _ _ _ _ (getD_set_self _ _ haLen) ?_ ?_
          · rw [Ksum_append]
            have h0 : slotKey x (some (ref.mk 0 (some x))) = 0 := by
              rw [slotKey_cell_some]
              simp
            rw [h0, add_zero, hk x]
            simp only [if_pos rfl]
            show b.count.ecount + -1 + (Ksum σ.slots x + (sec + 1 - sec)) =
              (Hcount σ.handles x : Int)
            omega
          · rw [Scount_append_hit _ (by rw [slotHit_cell_some]; simp), hsc x]
            show b.count.rcount + 1 = _
            push_cast
            omega
        · refine blockOK_counts σ _ _ _ _ _ _ x (getD_set_ne _ _ (Ne.symm hxa))
            rfl ?_ ?_ (hB x hx)
          · rw [Scount_append_miss _
              (slotHit_pair_miss 0 (fun hc => hxa (Option.some.inj hc).symm))]
            exact hsc x
          · rw [Ksum_append, slotKey_cell_some]
            simp only [ite_self, add_zero]
            rw [hk x]
            have : (if some a = some x then sec + 1 - sec else 0) = 0 := by
              simp
              intro hc
              exact absurd hc.symm hxa
            rw [this, add_zero]
      · intro h hh
        exact handleOK_all_frame σ _ _ _ _ _ (set_some_live σ _ haLen) hH h
          (by simpa using hh)
      · exact slotOK_all_set_append σ _ _ _ _ _ hcell (sec + 1) (some ⟨0, some a⟩)
          (set_some_live σ _ haLen)
          (by simp only [optAll_some]; exact set_live_self σ _ haLen) hS
      · exact destroyedOK_set hb _ hD

theorem Hcount_kill (hs : List (Option (Option Nat))) {i : Nat} {hv : Option Nat}
    (hcell : hs.getD i none = some hv) (x : Nat) :
    (Hcount (hs.set i none) x : Int) =
      Hcount hs x - (if handleHit x (some hv) then 1 else 0) := by
  have hi := lt_length_of_getD hcell
  have h := Hcount_set none x hi
  rw [hcell, handleHit_cell_none] at h
  simp only [Bool.false_eq_true, if_false] at h
  omega

theorem Scount_kill (ss : List (Option ref)) {i : Nat} {sl : ref}
    (hcell : ss.getD i none = some sl) (x : Nat) :
    (Scount (ss.set i none) x : Int) =
      Scount ss x - (if slotHit x (some sl) then 1 else 0) := by
  have hi := lt_length_of_getD hcell
  have h := Scount_set none x hi
  rw [hcell, slotHit_cell_none] at h
  simp only [Bool.false_eq_true, if_false] at h
  omega

theorem Ksum_kill (ss : List (Option ref)) {i : Nat} {sl : ref}
    (hcell : ss.getD i none = some sl) (x : Nat) :
    Ksum (ss.set i none) x = Ksum ss x - slotKey x (some sl) := by
  have hi := lt_length_of_getD hcell
  have h := Ksum_set none x hi
  rw [hcell, slotKey_cell_none] at h
  omega

theorem handleOK_all_kill (σ : Sys) (bl : List (Option atomic_ptr_ref))
    (sl : List (Option ref)) (dst : List Nat) (rec : List (Nat × Nat))
    (dt : List Nat) (i : Nat)
    (hlive : ∀ x, liveB σ x → bl.getD x none ≠ none)
    (hH : ∀ h, h < σ.handles.length → handleOK σ h) :
    ∀ h, h < (σ.handles.set i none).length →
      handleOK ⟨bl, σ.handles.set i none, sl, dst, rec, dt⟩ h := by
  intro h hh
  unfold handleOK
  dsimp only
  by_cases hhi : h = i
  · subst hhi
    by_cases hlen : h < σ.handles.length
    · rw [getD_set_self _ _ hlen]
      exact trivial
    · rw [List.set_eq_of_length_le (Nat.le_of_not_lt hlen)]
      rw [List.getD_eq_default _ _ (Nat.le_of_not_lt hlen)]
      exact trivial
  · rw [getD_set_ne _ _ (Ne.symm hhi)]
    have hOK := hH h (by simpa using hh)
    unfold handleOK at hOK
    cases hcell : σ.handles.getD h none with
    | none => exact trivial
    | some hv =>
      rw [hcell] at hOK
      cases hv with
      | none => exact trivial
      | some x => exact hlive x hOK

theorem slotOK_all_kill (σ : Sys) (bl : List (Option atomic_ptr_ref))
    (hs : List (Option (Option Nat))) (dst : List Nat) (rec : List (Nat × Nat))
    (dt : List Nat) (i : Nat)
    (hlive : ∀ x, liveB σ x → bl.getD x none ≠ none)
    (hS : ∀ s, s < σ.slots.length → slotOK σ s) :
    ∀ s, s < (σ.slots.set i none).length →
      slotOK ⟨bl, hs, σ.slots.set i none, dst, rec, dt⟩ s := by
  intro s hslt
  unfold slotOK
  dsimp only
  by_cases hsi : s = i
  · subst hsi
    by_cases hlen : s < σ.slots.length
    · rw [getD_set_self _ _ hlen]
      exact trivial
    · rw [List.set_eq_of_length_le (Nat.le_of_not_lt hlen)]
      rw [List.getD_eq_default _ _ (Nat.le_of_not_lt hlen)]
      exact trivial
  · rw [getD_set_ne _ _ (Ne.symm hsi)]
    have hOK := hS s (by simpa using hslt)
    unfold slotOK at hOK
    cases hcell : σ.slots.getD s none with
    | none => exact trivial
    | some sv =>
      rw [hcell] at hOK
      simp only [optAll_some] at hOK ⊢
      cases hptr : sv.ptr with
      | none => exact trivial
      | some x =>
        rw [hptr] at hOK
        exact hlive x hOK

theorem inv_op_dropLocal (σ : Sys) (h0 : Nat) (hI : Inv σ) :
    Inv (exec σ (.dropLocal h0)) := by
  obtain ⟨hB, hH, hS, hND, hD⟩ := hI
  simp only [exec]
  unfold dropLocalFn
  cases hcell : σ.handles.getD h0 none with
  | none => exact ⟨hB, hH, hS, hND, hD⟩
  | some hv =>
    dsimp only
    have hhlen : h0 < σ.handles.length := lt_length_of_getD hcell
    cases hv with
    | none =>
      refine ⟨?_, ?_, ?_, hND, ?_⟩
      · intro x hx
        refine blockOK_counts σ _ _ _ _ _ _ x rfl ?_ rfl rfl
          (hB x (by simpa using hx))
        have h := Hcount_kill σ.handles hcell x
        simp only [handleHit_cell_empty, Bool.false_eq_true, if_false] at h
        omega
      · exact handleOK_all_kill σ _ _ _ _ _ h0 (fun x hl => hl) hH
      · intro s hs
        exact slotOK_all_frame σ _ _ _ _ _ (fun x hl => hl) hS s (by simpa using hs)
      · exact hD
    | some a =>
      have hOKh := hH h0 hhlen
      unfold handleOK at hOKh
      rw [hcell] at hOKh
      obtain ⟨b, hb⟩ := Option.ne_none_iff_exists'.1 hOKh
      have hOKa := hB a (lt_length_of_getD hb)
      unfold blockOK at hOKa
      rw [hb] at hOKa
      simp only [optAll_some] at hOKa
      obtain ⟨h1, h2⟩ := hOKa
      refine inv_releaseAt (b := b) hb ?_ ?_ ?_
      · show b.count.ecount + -1 + Ksum σ.slots a =
          (Hcount (σ.handles.set h0 none) a : Int)
        have h : (Hcount (σ.handles.set h0 none) a : Int) =
            (Hcount σ.handles a : Int) - 1 := by
          rw [Hcount_kill σ.handles hcell a]
          simp [handleHit]
        omega
      · show b.count.rcount + 0 = (Scount σ.slots a : Int)
        omega
      · refine ⟨?_, ?_, ?_, hND, ?_⟩
        · intro x hx hxa
          refine blockOK_counts σ _ _ _ _ _ _ x rfl ?_ rfl rfl
            (hB x (by simpa using hx))
          have hax : a ≠ x := fun hc => hxa hc.symm
          have h : (Hcount (σ.handles.set h0 none) x : Int) =
              (Hcount σ.handles x : Int) := by
            rw [Hcount_kill σ.handles hcell x]
            simp [handleHit, hax]
          omega
        · exact handleOK_all_kill σ _ _ _ _ _ h0 (fun x hl => hl) hH
        · intro s hs
          exact slotOK_all_frame σ _ _ _ _ _ (fun x hl => hl) hS s
            (by simpa using hs)
        · exact hD

theorem inv_op_dropAtomic (σ : Sys) (s0 : Nat) (hI : Inv σ) :
    Inv (exec σ (.dropAtomic s0)) := by
  obtain ⟨hB, hH, hS, hND, hD⟩ := hI
  simp only [exec]
  unfold dropAtomicFn
  cases hcell : σ.slots.getD s0 none with
  | none => exact ⟨hB, hH, hS, hND, hD⟩
  | some sl =>
    obtain ⟨sec, sptr⟩ := sl
    dsimp only
    have hslen : s0 < σ.slots.length := lt_length_of_getD hcell
    cases sptr with
    | none =>
      dsimp only
      refine ⟨?_, ?_, ?_, hND, ?_⟩
      · intro x hx
        refine blockOK_counts σ _ _ _ _ _ _ x rfl rfl ?_ ?_
          (hB x (by simpa using hx))
        · have h := Scount_kill σ.slots hcell x
          rw [slotHit_pair_miss sec (fun hc => Option.noConfusion hc)] at h
          simp only [Bool.false_eq_true, if_false] at h
          omega
        · have h := Ksum_kill σ.slots hcell x
          have h0 : slotKey x (some (ref.mk sec none)) = 0 := rfl
          rw [h0] at h
          omega
      · intro h hh
        exact handleOK_all_frame σ _ _ _ _ _ (fun x hl => hl) hH h (by simpa using hh)
      · exact slotOK_all_kill σ _ _ _ _ _ s0 (fun x hl => hl) hS
      · exact hD
    | some a =>
      dsimp only
      have hOKs := hS s0 hslen
      unfold slotOK at hOKs
      rw [hcell] at hOKs
      simp only [optAll_some] at hOKs
      obtain ⟨b, hb⟩ := Option.ne_none_iff_exists'.1 hOKs
      have hOKa := hB a (lt_length_of_getD hb)
      unfold blockOK at hOKa
      rw [hb] at hOKa
      simp only [optAll_some] at hOKa
      obtain ⟨h1, h2⟩ := hOKa
      refine inv_releaseAt (b := b) hb ?_ ?_ ?_
      · show b.count.ecount + sec + Ksum (σ.slots.set s0 none) a =
          (Hcount σ.handles a : Int)
        have h : Ksum (σ.slots.set s0 none) a = Ksum σ.slots a - sec := by
          rw [Ksum_kill σ.slots hcell a]
          have h0 : slotKey a (some (ref.mk sec (some a))) = sec := by
            rw [slotKey_cell_some]
            simp
          rw [h0]
        omega
      · show b.count.rcount + -1 = (Scount (σ.slots.set s0 none) a : Int)
        have h : (Scount (σ.slots.set s0 none) a : Int) =
            (Scount σ.slots a : Int) - 1 := by
          rw [Scount_kill σ.slots hcell a]
          simp [slotHit]
        omega
      · refine ⟨?_, ?_, ?_, hND, ?_⟩
        · intro x hx hxa
          have hax : ¬(some a = some x) := fun hc => hxa (Option.some.inj hc).symm
          refine blockOK_counts σ _ _ _ _ _ _ x rfl rfl ?_ ?_
            (hB x (by simpa using hx))
          · have h : (Scount (σ.slots.set s0 none) x : Int) =
                (Scount σ.slots x : Int) := by
              rw [Scount_kill σ.slots hcell x]
              simp [slotHit, hax]
            omega
          · have h := Ksum_kill σ.slots hcell x
            have h0 : slotKey x (some (ref.mk sec (some a))) = 0 := by
              rw [slotKey_cell_some]
              show (if some a = some x then sec else 0) = 0
              simp [hax]
            rw [h0] at h
            omega
        · intro h hh
          exact handleOK_all_frame σ _ _ _ _ _ (fun x hl => hl) hH h
            (by simpa using hh)
        · exact slotOK_all_kill σ _ _ _ _ _ s0 (fun x hl => hl) hS
        · exact hD

theorem Scount_swap (ss : List (Option ref)) {s t : Nat} {sv tv : ref}
    (hs : ss.getD s none = some sv) (ht : ss.getD t none = some tv)
    (hst : s ≠ t) (x : Nat) :
    Scount ((ss.set s (some tv)).set t (some sv)) x = Scount ss x := by
  have hslen : s < ss.length := lt_length_of_getD hs
  have htlen : t < ss.length := lt_length_of_getD ht
  have h1 := Scount_set (some tv) x hslen
  rw [hs] at h1
  have h2 := Scount_set (some sv) x (show t < (ss.set s (some tv)).length by simpa using htlen)
  rw [getD_set_ne _ _ hst, ht] at h2
  omega

theorem Ksum_swap (ss : List (Option ref)) {s t : Nat} {sv tv : ref}
    (hs : ss.getD s none = some sv) (ht : ss.getD t none = some tv)
    (hst : s ≠ t) (x : Nat) :
    Ksum ((ss.set s (some tv)).set t (some sv)) x = Ksum ss x := by
  have hslen : s < ss.length := lt_length_of_getD hs
  have htlen : t < ss.length := lt_length_of_getD ht
  have h1 := Ksum_set (some tv) x hslen
  rw [hs] at h1
  have h2 := Ksum_set (some sv) x (show t < (ss.set s (some tv)).length by simpa using htlen)
  rw [getD_set_ne _ _ hst, ht] at h2
  omega

theorem slotOK_all_swap (σ : Sys) (bl : List (Option atomic_ptr_ref))
    (hs2 : List (Option (Option Nat))) (dst : List Nat) (rec : List (Nat × Nat))
    (dt : List Nat) {s t : Nat} {sv tv : ref}
    (hs : σ.slots.getD s none = some sv) (ht : σ.slots.getD t none = some tv)
    (hst : s ≠ t)
    (hlive : ∀ x, liveB σ x → bl.getD x none ≠ none)
    (hS : ∀ s2, s2 < σ.slots.length → slotOK σ s2) :
    ∀ s2, s2 < ((σ.slots.set s (some tv)).set t (some sv)).length →
      slotOK ⟨bl, hs2, (σ.slots.set s (some tv)).set t (some sv), dst, rec, dt⟩ s2 := by
  intro s2 hslt
  have hslen : s < σ.slots.length := lt_length_of_getD hs
  have htlen : t < σ.slots.length := lt_length_of_getD ht
  unfold slotOK
  dsimp only
  have hgen : ∀ w : ref, σ.slots.getD s2 none = some w ∨ w = sv ∨ w = tv →
      optAll (fun x => bl.getD x none ≠ none) w.ptr → True := fun _ _ _ => trivial
  have hcellOK : ∀ w : ref, (∃ i, i < σ.slots.length ∧ σ.slots.getD i none = some w) →
      optAll (fun x => bl.getD x none ≠ none) w.ptr := by
    intro w hw
    obtain ⟨i, hi, hwi⟩ := hw
    have hOK := hS i hi
    unfold slotOK at hOK
    rw [hwi] at hOK
    simp only [optAll_some] at hOK
    cases hptr : w.ptr with
    | none => exact trivial
    | some x =>
      rw [hptr] at hOK
      exact hlive x hOK
  by_cases h2t : s2 = t
  · subst h2t
    rw [getD_set_self _ _ (by simpa using htlen)]
    simp only [optAll_some]
    exact hcellOK sv ⟨s, hslen, hs⟩
  · rw [getD_set_ne _ _ (Ne.symm h2t)]
    by_cases h2s : s2 = s
    · subst h2s
      rw [getD_set_self _ _ hslen]
      simp only [optAll_some]
      exact hcellOK tv ⟨t, htlen, ht⟩
    · rw [getD_set_ne _ _ (Ne.symm h2s)]
      cases hcell : σ.slots.getD s2 none with
      | none => exact trivial
      | some w =>
        simp only [optAll_some]
        exact hcellOK w ⟨s2, by simpa using hslt, hcell⟩

theorem inv_swap_cells (σ : Sys) {s t : Nat} {sv tv : ref}
    (hs : σ.slots.getD s none = some sv) (ht : σ.slots.getD t none = some tv)
    (hst : s ≠ t) (hI : Inv σ) :
    Inv { σ with slots := (σ.slots.set s (some tv)).set t (some sv) } := by
  obtain ⟨hB, hH, hS, hND, hD⟩ := hI
  refine ⟨?_, ?_, ?_, hND, ?_⟩
  · intro x hx
    exact blockOK_counts σ _ _ _ _ _ _ x rfl rfl
      (Scount_swap σ.slots hs ht hst x) (Ksum_swap σ.slots hs ht hst x)
      (hB x (by simpa using hx))
  · intro h hh
    exact handleOK_all_frame σ _ _ _ _ _ (fun x hl => hl) hH h (by simpa using hh)
  · exact slotOK_all_swap σ _ _ _ _ _ hs ht hst (fun x hl => hl) hS
  · exact hD

theorem inv_op_swapOp (σ : Sys) (s t : Nat) (hI : Inv σ) :
    Inv (exec σ (.swapOp s t)) := by
  simp only [exec]
  by_cases hst : s = t
  · rw [if_pos hst]
    exact hI
  · rw [if_neg hst]
    cases hs : σ.slots.getD s none with
    | none => exact hI
    | some sv =>
      cases ht : σ.slots.getD t none with
      | none => exact hI
      | some tv => exact inv_swap_cells σ hs ht hst hI

theorem inv_op_casOp (σ : Sys) (s h0 t : Nat) (hI : Inv σ) :
    Inv (exec σ (.casOp s h0 t)) := by
  simp only [exec]
  by_cases hst : s = t
  · rw [if_pos hst]
    exact hI
  · rw [if_neg hst]
    cases hcmp : σ.handles.getD h0 none with
    | none => exact hI
    | some cmp =>
      cases hs : σ.slots.getD s none with
      | none => exact hI
      | some sv =>
        cases ht : σ.slots.getD t none with
        | none => exact hI
        | some tv =>
          dsimp only
          by_cases hmatch : sv.ptr = cmp
          · rw [if_pos hmatch]
            have hswap := inv_swap_cells σ hs ht hst hI
            exact inv_op_dropAtomic _ t hswap
          · rw [if_neg hmatch]
            exact inv_op_dropAtomic σ t hI

theorem inv_op_setPoolOp (σ : Sys) (h0 : Nat) (p : Option Nat) (hI : Inv σ) :
    Inv (exec σ (.setPoolOp h0 p)) := by
  obtain ⟨hB, hH, hS, hND, hD⟩ := hI
  simp only [exec]
  cases hcell : σ.handles.getD h0 none with
  | none => exact ⟨hB, hH, hS, hND, hD⟩
  | some hv =>
    cases hv with
    | none => exact ⟨hB, hH, hS, hND, hD⟩
    | some a =>
      dsimp only
      cases hb : σ.blocks.getD a none with
      | none => exact ⟨hB, hH, hS, hND, hD⟩
      | some b =>
        dsimp only
        have haLen : a < σ.blocks.length := lt_length_of_getD hb
        refine ⟨?_, ?_, ?_, hND, ?_⟩
        · intro x hx
          replace hx : x < σ.blocks.length := by simpa using hx
          by_cases hxa : x = a
          · subst hxa
            have hOKa := hB x hx
            unfold blockOK at hOKa
            rw [hb] at hOKa
            simp only [optAll_some] at hOKa
            exact blockOK_update _ _ _ _ _ _ _ _ (getD_set_self _ _ haLen)
              hOKa.1 hOKa.2
          · exact blockOK_counts σ _ _ _ _ _ _ x (getD_set_ne _ _ (Ne.symm hxa))
              rfl rfl rfl (hB x hx)
        · intro h hh
          exact handleOK_all_frame σ _ _ _ _ _ (set_some_live σ _ haLen) hH h
            (by simpa using hh)
        · intro s hs
          exact slotOK_all_frame σ _ _ _ _ _ (set_some_live σ _ haLen) hS s
            (by simpa using hs)
        · exact destroyedOK_set hb _ hD

theorem inv_step (σ : Sys) (op : Op) (hI : Inv σ) : Inv (exec σ op) := by
  cases op with
  | newLocal p => exact inv_op_newLocal σ p hI
  | copyLocal h => exact inv_op_copyLocal σ h hI
  | pinLocal s => exact inv_op_pinLocal σ s hI
  | recycleLocal a => exact inv_op_recycleLocal σ a hI
  | dropLocal h => exact inv_op_dropLocal σ h hI
  | newAtomic p => exact inv_op_newAtomic σ p hI
  | fromLocalAtomic h => exact inv_op_fromLocalAtomic σ h hI
  | copyAtomic s => exact inv_op_copyAtomic σ s hI
  | recycleAtomic a => exact inv_op_recycleAtomic σ a hI
  | dropAtomic s => exact inv_op_dropAtomic σ s hI
  | swapOp s t => exact inv_op_swapOp σ s t hI
  | casOp s h t => exact inv_op_casOp σ s h t hI
  | setPoolOp h p => exact inv_op_setPoolOp σ h p hI

theorem inv_foldl (ops : List Op) :
    ∀ σ, Inv σ → Inv (ops.foldl exec σ) := by
  induction ops with
  | nil => exact fun σ h => h
  | cons op rest ih => exact fun σ h => ih (exec σ op) (inv_step σ op h)

theorem inv_init : Inv init := by decide

theorem inv_runOps (ops : List Op) : Inv (runOps ops) :=
  inv_foldl ops init inv_init

theorem adjustLoop_spec (de dr : Int) (oldval : refcount)
    (sched : List refcount) (res : refcount × Int)
    (h : adjustLoop de dr oldval sched = some res) :
    (∃ cur ∈ sched, res.1.ecount = cur.ecount + de ∧ res.1.rcount = cur.rcount + dr) ∧
    (res.2 = 0 ↔ res.1.ecount = 0 ∧ res.1.rcount = 0) := by
  induction sched generalizing oldval with
  | nil => exact absurd h (by simp [adjustLoop])
  | cons cur rest ih =>
    rw [adjustLoop] at h
    by_cases hceq : cur = oldval
    · rw [if_pos hceq] at h
      subst hceq
      have hres := Option.some.inj h
      subst hres
      refine ⟨⟨cur, List.mem_cons_self _ _, rfl, rfl⟩, ?_⟩
      by_cases hz : cur.ecount + de = 0 ∧ cur.rcount + dr = 0
      · rw [if_pos hz]
        simpa using hz
      · rw [if_neg hz]
        constructor
        · intro hcon
          exact absurd hcon one_ne_zero
        · intro hcon
          exact absurd hcon hz
    · rw [if_neg hceq] at h
      obtain ⟨⟨c2, hc2, he, hr⟩, hiff⟩ := ih cur h
      exact ⟨⟨c2, List.mem_cons_of_mem _ hc2, he, hr⟩, hiff⟩

theorem casLoop_success_spec (cmp : Option Nat) (temp : ref) (reads : List ref)
    (prev : ref) (htemp : temp.ptr = cmp)
    (h : casLoop cmp temp reads = .success prev) :
    prev ∈ reads ∧ prev.ptr = cmp := by
  induction reads generalizing temp with
  | nil => exact absurd h (by simp [casLoop])
  | cons cur rest ih =>
    rw [casLoop] at h
    by_cases hceq : cur = temp
    · rw [if_pos hceq] at h
      have := CasOutcome.success.inj h
      subst this
      exact ⟨hceq ▸ List.mem_cons_self _ _, htemp⟩
    · rw [if_neg hceq] at h
      by_cases hguard : cmp = cur.ptr
      · rw [if_pos hguard] at h
        obtain ⟨hmem, hptr⟩ := ih cur hguard.symm h
        exact ⟨List.mem_cons_of_mem _ hmem, hptr⟩
      · rw [if_neg hguard] at h
        exact absurd h (by simp)

theorem casLoop_failure_spec (cmp : Option Nat) (temp : ref) (reads : List ref)
    (h : casLoop cmp temp reads = .failure) :
    ∃ cur ∈ reads, cur.ptr ≠ cmp := by
  induction reads generalizing temp with
  | nil => exact absurd h (by simp [casLoop])
  | cons cur rest ih =>
    rw [casLoop] at h
    by_cases hceq : cur = temp
    · rw [if_pos hceq] at h
      exact absurd h (by simp)
    · rw [if_neg hceq] at h
      by_cases hguard : cmp = cur.ptr
      · rw [if_pos hguard] at h
        obtain ⟨c2, hc2, hne⟩ := ih cur h
        exact ⟨c2, List.mem_cons_of_mem _ hc2, hne⟩
      · rw [if_neg hguard] at h
        exact ⟨cur, List.mem_cons_self _ _, fun hc => hguard hc.symm⟩

/-- C2: `atomic_ptr_ref::adjust` (atomic_ptr.h:136-149) applies both deltas in
the single successful CAS over the counter pair: whatever interference the
loop retries through, the returned pair equals the pair observed at the
linearization point plus `(Δe, Δr)` in one step, and the returned
zero-indication (the source encodes the "dropped to (0,0)" answer as the
`int` 0, which every caller tests with `== 0`) is given exactly when the
resulting pair is `(0,0)`.  The last conjunct ties the loop model to the
interference-free execution `adjustSeq` used by the state machine. -/
theorem C2_adjust_adds_both_and_flags_zero :
    (∀ (de dr : Int) (oldval : refcount) (sched : List refcount)
        (res : refcount × Int),
      adjustLoop de dr oldval sched = some res →
      (∃ cur ∈ sched,
          res.1.ecount = cur.ecount + de ∧ res.1.rcount = cur.rcount + dr) ∧
      (res.2 = 0 ↔ res.1.ecount = 0 ∧ res.1.rcount = 0)) ∧
    (∀ (c : refcount) (de dr : Int),
      adjustLoop de dr c [c] = some (adjustSeq c de dr)) := by
  constructor
  · exact fun de dr oldval sched res h => adjustLoop_spec de dr oldval sched res h
  · intro c de dr
    rw [adjustLoop, if_pos rfl]
    rfl

/-- Witness for C2 at a concrete input: dropping the last ephemeral share of
a block whose pair is `(1,0)` yields the pair `(0,0)` and the
zero-indication. -/
theorem C2_witness :
    ((⟨0, 0⟩, 0) : refcount × Int).2 = 0 ↔
      ((⟨0, 0⟩, 0) : refcount × Int).1.ecount = 0 ∧
        ((⟨0, 0⟩, 0) : refcount × Int).1.rcount = 0 :=
  (C2_adjust_adds_both_and_flags_zero.1 (-1) 0 ⟨1, 0⟩ [⟨1, 0⟩]
    (⟨0, 0⟩, 0) (by decide)).2

/-- C3: `atomic_ptr::cas` (atomic_ptr.h:390-409) returns true exactly when at
its linearization point (the successful wide CAS) the slot's block pointer
equals the expected handle's block pointer, whatever the slot-local ephemeral
count does meanwhile; on success the slot's previous pair is transferred into
the (by-value) `xchg`, on failure `xchg` is unchanged and false is returned;
the retry loop keeps going exactly while the observed block pointer equals
the expected one (atomic_ptr.h:406): if every observed pair still carries the
expected pointer the call cannot fail, and a failure exhibits an observed
pointer that differs.  The final conjunct is the interference-free run: one
observation decides by pointer identity alone. -/
theorem C3_cas_pointer_identity :
    (∀ (reads : List ref) (e0 : Int) (cmp : Option Nat) (xchg : ref)
        (res : Bool × ref), casRun reads e0 cmp xchg = some res →
      (res.1 = true → res.2 ∈ reads ∧ res.2.ptr = cmp) ∧
      (res.1 = false → res.2 = xchg ∧ ∃ cur ∈ reads, cur.ptr ≠ cmp) ∧
      ((∀ cur ∈ reads, cur.ptr = cmp) → res.1 = true)) ∧
    (∀ (sl : ref) (cmp : Option Nat) (xchg : ref),
      casRun [sl] sl.ecount cmp xchg =
        some (if sl.ptr = cmp then (true, sl) else (false, xchg))) := by
  constructor
  · intro reads e0 cmp xchg res h
    unfold casRun at h
    refine ⟨?_, ?_, ?_⟩
    · intro htrue
      cases hloop : casLoop cmp ⟨e0, cmp⟩ reads with
      | success prev =>
        rw [hloop] at h
        have := Option.some.inj h
        subst this
        exact casLoop_success_spec cmp ⟨e0, cmp⟩ reads prev rfl hloop
      | failure =>
        rw [hloop] at h
        have := Option.some.inj h
        subst this
        exact absurd htrue (by simp)
      | fuel =>
        rw [hloop] at h
        exact absurd h (by simp)
    · intro hfalse
      cases hloop : casLoop cmp ⟨e0, cmp⟩ reads with
      | success prev =>
        rw [hloop] at h
        have := Option.some.inj h
        subst this
        exact absurd hfalse (by simp)
      | failure =>
        rw [hloop] at h
        have := Option.some.inj h
        subst this
        exact ⟨rfl, casLoop_failure_spec cmp ⟨e0, cmp⟩ reads hloop⟩
      | fuel =>
        rw [hloop] at h
        exact absurd h (by simp)
    · intro hall
      cases hloop : casLoop cmp ⟨e0, cmp⟩ reads with
      | success prev =>
        rw [hloop] at h
        have := Option.some.inj h
        subst this
        rfl
      | failure =>
        obtain ⟨cur, hcur, hne⟩ := casLoop_failure_spec cmp ⟨e0, cmp⟩ reads hloop
        exact absurd (hall cur hcur) hne
      | fuel =>
        rw [hloop] at h
        exact absurd h (by simp)
  · intro sl cmp xchg
    obtain ⟨e, p⟩ := sl
    by_cases hp : p = cmp
    · subst hp
      rw [if_pos rfl]
      unfold casRun
      rw [casLoop, if_pos rfl]
    · rw [if_neg (by simpa using hp)]
      unfold casRun
      rw [casLoop, if_neg (by simp only [ref.mk.injEq, true_and]; exact hp),
        if_neg (by simpa using fun hc => hp hc.symm)]

/-- Witness for C3 at a concrete input: with expected pointer `some 2`, a
schedule whose ephemeral count churns from 0 to 3 while the pointer stays
`some 2` still succeeds, and the previous pair `(3, some 2)` is the pair at
the linearization point. -/
theorem C3_witness :
    ((true, (⟨3, some 2⟩ : ref)) : Bool × ref).1 = true →
      ((true, (⟨3, some 2⟩ : ref)) : Bool × ref).2 ∈
          [(⟨0, some 2⟩ : ref), ⟨3, some 2⟩, ⟨3, some 2⟩] ∧
        ((true, (⟨3, some 2⟩ : ref)) : Bool × ref).2.ptr = some 2 :=
  (C3_cas_pointer_identity.1 [⟨0, some 2⟩, ⟨3, some 2⟩, ⟨3, some 2⟩] 5 (some 2)
    ⟨7, some 9⟩ (true, ⟨3, some 2⟩) (by decide)).1

/-- C7 counterexample: `local_ptr::get` (atomic_ptr.h:220-222) on an empty
handle does not fail visibly — it silently returns the null payload pointer
(`(T *)0` in the source, `none` here), refuting "never proceeds as a silent
null dereference yielding a null payload pointer". -/
theorem C7_counterexample :
    (runOps [.newLocal none]).handles.getD 0 none = some none ∧
    localGet (runOps [.newLocal none]) 0 = none := by
  decide

/-- C7 (amended): dereferencing an empty pinned handle silently yields the
null payload pointer (the caller's responsibility, as in the source); on a
non-empty handle `get` yields the referenced block's payload pointer. -/
theorem C7_get_yields_null_on_empty (σ : Sys) (h : Nat) :
    (σ.handles.getD h none = some none → localGet σ h = none) ∧
    (∀ a b, σ.handles.getD h none = some (some a) →
      σ.blocks.getD a none = some b → localGet σ h = b.ptr) := by
  constructor
  · intro hcell
    unfold localGet
    rw [hcell]
  · intro a b hcell hb
    unfold localGet
    rw [hcell]
    dsimp only
    rw [hb]

/-- Witness for C7 (amended) at a concrete input. -/
theorem C7_witness :
    localGet (runOps [.newLocal (some 9)]) 0 = some 9 :=
  (C7_get_yields_null_on_empty (runOps [.newLocal (some 9)]) 0).2 0
    ⟨⟨1, 0⟩, some 9, none, none⟩ (by decide) (by decide)

/-- C8: a slot holding the null pointer: pinning it still bumps the slot
ephemeral count but yields an empty handle; `cas` with an empty expected
handle succeeds exactly when the slot's block pointer is null (one-shot
sequential run of the loop); and the slot's destructor `~atomic_ptr`
(atomic_ptr.h:333-342) performs no count adjustment, destroys nothing and
logs no event — it only retires the slot. -/
theorem C8_null_slot (σ : Sys) (s : Nat) (sl : ref) (xchg : ref) :
    (σ.slots.getD s none = some sl → sl.ptr = none →
      exec σ (.pinLocal s) = { σ with
        slots := σ.slots.set s (some ⟨sl.ecount + 1, none⟩),
        handles := σ.handles ++ [some none] }) ∧
    (sl.ptr = none → casRun [sl] sl.ecount none xchg = some (true, sl)) ∧
    (sl.ptr ≠ none → casRun [sl] sl.ecount none xchg = some (false, xchg)) ∧
    (σ.slots.getD s none = some sl → sl.ptr = none →
      dropAtomicFn σ s = { σ with slots := σ.slots.set s none }) := by
  refine ⟨?_, ?_, ?_, ?_⟩
  · intro hcell hptr
    simp only [exec, hcell]
    rw [hptr]
  · intro hptr
    have := (C3_cas_pointer_identity.2 sl none xchg)
    rw [if_pos hptr] at this
    exact this
  · intro hptr
    have := (C3_cas_pointer_identity.2 sl none xchg)
    rw [if_neg hptr] at this
    exact this
  · intro hcell hptr
    unfold dropAtomicFn
    rw [hcell]
    dsimp only
    rw [hptr]

/-- Witness for C8 at a concrete input: a slot containing null. -/
theorem C8_witness :
    exec ⟨[], [], [some ⟨4, none⟩], [], [], []⟩ (.pinLocal 0) =
      ⟨[], [some none], [some ⟨5, none⟩], [], [], []⟩ :=
  (C8_null_slot ⟨[], [], [some ⟨4, none⟩], [], [], []⟩ 0 ⟨4, none⟩
    ⟨0, none⟩).1 (by decide) (by decide)

/-- C6: every install site sets the counter pair for its owner.
`local_ptr(T*)` overwrites the fresh block to `(1,0)` (atomic_ptr.h:163-171);
`atomic_ptr(T*)` keeps the constructor's `(0,1)` (atomic_ptr.h:298-305);
the recycle-install constructors (atomic_ptr.h:183-190, 323-330) reset a
supplied quiescent block to `(1,0)` respectively `(0,1)` in place — same
address, no new block, payload, pool pointer and link untouched. -/
theorem C6_install_pairs (σ : Sys) (p : Nat) (a : Nat) (b : atomic_ptr_ref) :
    (exec σ (.newLocal (some p)) = { σ with
        blocks := σ.blocks ++ [some ⟨⟨1, 0⟩, some p, none, none⟩],
        handles := σ.handles ++ [some (some σ.blocks.length)] }) ∧
    (exec σ (.newAtomic (some p)) = { σ with
        blocks := σ.blocks ++ [some ⟨⟨0, 1⟩, some p, none, none⟩],
        slots := σ.slots ++ [some ⟨0, some σ.blocks.length⟩] }) ∧
    (σ.blocks.getD a none = some b → b.count = ⟨0, 0⟩ →
      exec σ (.recycleLocal a) = { σ with
        blocks := σ.blocks.set a (some { b with count := ⟨1, 0⟩ }),
        handles := σ.handles ++ [some (some a)] } ∧
      (exec σ (.recycleLocal a)).blocks.length = σ.blocks.length) ∧
    (σ.blocks.getD a none = some b → b.count = ⟨0, 0⟩ →
      exec σ (.recycleAtomic a) = { σ with
        blocks := σ.blocks.set a (some { b with count := ⟨0, 1⟩ }),
        slots := σ.slots ++ [some ⟨0, some a⟩] } ∧
      (exec σ (.recycleAtomic a)).blocks.length = σ.blocks.length) := by
  refine ⟨rfl, rfl, ?_, ?_⟩
  · intro hb hc
    have hcond : b.count.ecount = 0 ∧ b.count.rcount = 0 := by
      rw [hc]
      exact ⟨rfl, rfl⟩
    have heq : exec σ (.recycleLocal a) = { σ with
        blocks := σ.blocks.set a (some { b with count := ⟨1, 0⟩ }),
        handles := σ.handles ++ [some (some a)] } := by
      simp only [exec]
      rw [hb]
      dsimp only
      rw [if_pos hcond]
    refine ⟨heq, ?_⟩
    rw [heq]
    exact List.length_set ..
  · intro hb hc
    have hcond : b.count.ecount = 0 ∧ b.count.rcount = 0 := by
      rw [hc]
      exact ⟨rfl, rfl⟩
    have heq : exec σ (.recycleAtomic a) = { σ with
        blocks := σ.blocks.set a (some { b with count := ⟨0, 1⟩ }),
        slots := σ.slots ++ [some ⟨0, some a⟩] } := by
      simp only [exec]
      rw [hb]
      dsimp only
      rw [if_pos hcond]
    refine ⟨heq, ?_⟩
    rw [heq]
    exact List.length_set ..

/-- Witness for C6 at a concrete input: a quiescent pooled block is reset to
`(1,0)` in place, its payload, pool hook and link untouched. -/
theorem C6_witness :
    exec ⟨[some ⟨⟨0, 0⟩, some 7, some 3, none⟩], [], [], [], [], []⟩
        (.recycleLocal 0) =
      ⟨[some ⟨⟨1, 0⟩, some 7, some 3, none⟩], [some (some 0)], [], [], [], []⟩ :=
  ((C6_install_pairs ⟨[some ⟨⟨0, 0⟩, some 7, some 3, none⟩], [], [], [], [], []⟩
    5 0 ⟨⟨0, 0⟩, some 7, some 3, none⟩).2.2.1 (by decide) (by decide)).1

/-- C5: the shared release epilogue of `~local_ptr` and `~atomic_ptr`
(atomic_ptr.h:192-199, 333-342).  When the `adjust` signals the pair dropped
to `(0,0)`, destroy-or-recycle runs exactly once, inline in that very call
(sequential model; the source runs it synchronously on the releasing
thread): with a null pool hook, `delete refptr` destructs the payload and
frees the block, appending exactly one destruction event; with a hook
installed, the hook is invoked with the block — the library neither
destructs the payload nor frees the block.  When the pair is not `(0,0)`,
no event of either kind occurs.  The last two conjuncts show the two
destructors are exactly this epilogue after detaching the handle
(`adjust(-1,0)`) respectively the slot (`adjust(ecount,-1)`). -/
theorem C5_release_destroy_or_recycle (σ : Sys) (a : Nat) (de dr : Int)
    (b : atomic_ptr_ref) (hb : σ.blocks.getD a none = some b) :
    ((adjustSeq b.count de dr).2 = 0 → b.pool = none →
      releaseAt σ a de dr = { σ with
        blocks := σ.blocks.set a none,
        destroyed := σ.destroyed ++ [a],
        dtors := σ.dtors ++ (match b.ptr with | some q => [q] | none => []) }) ∧
    (∀ f, (adjustSeq b.count de dr).2 = 0 → b.pool = some f →
      releaseAt σ a de dr = { σ with
        blocks := σ.blocks.set a
          (some { b with count := (adjustSeq b.count de dr).1 }),
        recycledEv := σ.recycledEv ++ [(f, a)] }) ∧
    ((adjustSeq b.count de dr).2 ≠ 0 →
      releaseAt σ a de dr = { σ with
        blocks := σ.blocks.set a
          (some { b with count := (adjustSeq b.count de dr).1 }) }) ∧
    (∀ h a2, σ.handles.getD h none = some (some a2) →
      dropLocalFn σ h =
        releaseAt { σ with handles := σ.handles.set h none } a2 (-1) 0) ∧
    (∀ s sl a2, σ.slots.getD s none = some sl → sl.ptr = some a2 →
      dropAtomicFn σ s =
        releaseAt { σ with slots := σ.slots.set s none } a2 sl.ecount (-1)) := by
  refine ⟨?_, ?_, ?_, ?_, ?_⟩
  · intro hz hpool
    unfold releaseAt
    rw [hb]
    dsimp only
    rw [if_pos hz]
    have : b.pool = none := hpool
    rw [this]
  · intro f hz hpool
    unfold releaseAt
    rw [hb]
    dsimp only
    rw [if_pos hz]
    have : b.pool = some f := hpool
    rw [this]
  · intro hz
    unfold releaseAt
    rw [hb]
    dsimp only
    rw [if_neg hz]
  · intro h a2 hcell
    unfold dropLocalFn
    rw [hcell]
  · intro s sl a2 hcell hptr
    unfold dropAtomicFn
    rw [hcell]
    dsimp only
    rw [hptr]

/-- Witness for C5 at a concrete input: the last handle of an unpooled block
drives the pair from `(1,0)` to `(0,0)`; the payload destructor runs and the
block is freed, one destruction event logged. -/
theorem C5_witness :
    releaseAt ⟨[some ⟨⟨1, 0⟩, some 7, none, none⟩], [], [], [], [], []⟩
        0 (-1) 0 =
      ⟨[none], [], [], [0], [], [7]⟩ :=
  (C5_release_destroy_or_recycle
    ⟨[some ⟨⟨1, 0⟩, some 7, none, none⟩], [], [], [], [], []⟩ 0 (-1) 0
    ⟨⟨1, 0⟩, some 7, none, none⟩ (by decide)).1 (by decide) (by decide)

/-- C1 counterexample: pinning a slot whose fresh block carries `(0,1)`
leaves the block's counters at `(0,1)` — the migrate step `adjust(-1,+1)`
the claim asserts would leave `(-1,2)` does not happen (`getrefptr`,
atomic_ptr.h:439-452, only increments the slot-local ephemeral count) — and
releasing the pinned handle then yields `(-1,1)`: the release decremented
the ephemeral count and left `refs` untouched, so the handle owned an
ephemeral unit, not a durable one. -/
theorem C1_counterexample :
    (runOps [.newAtomic (some 5)]).blocks.getD 0 none =
      some ⟨⟨0, 1⟩, some 5, none, none⟩ ∧
    (runOps [.newAtomic (some 5), .pinLocal 0]).blocks.getD 0 none =
      some ⟨⟨0, 1⟩, some 5, none, none⟩ ∧
    ¬((runOps [.newAtomic (some 5), .pinLocal 0]).blocks.getD 0 none =
      some ⟨⟨-1, 2⟩, some 5, none, none⟩) ∧
    (runOps [.newAtomic (some 5), .pinLocal 0]).slots.getD 0 none =
      some ⟨1, some 0⟩ ∧
    (runOps [.newAtomic (some 5), .pinLocal 0, .dropLocal 0]).blocks.getD 0 none =
      some ⟨⟨-1, 1⟩, some 5, none, none⟩ := by
  decide

/-- C1 (amended): pinning a slot increments the slot pair's ephemeral count
by one under the wide CAS of `getrefptr` and hands the observed block
pointer to the new handle, performing no `adjust` on the block; the handle
therefore owns one ephemeral unit of the block's accounting, and releasing
it performs `adjust(-1, 0)` — decrementing `ephemeral`, not `refs`.  The
migrate step `adjust(-1, +1)` is performed by the slot-from-slot copy
constructor `atomic_ptr(atomic_ptr&)` (atomic_ptr.h:313-320) instead. -/
theorem C1_pin_reserves_ephemeral (σ : Sys) (s : Nat) (sl : ref)
    (hcell : σ.slots.getD s none = some sl) :
    (exec σ (.pinLocal s) = { σ with
        slots := σ.slots.set s (some ⟨sl.ecount + 1, sl.ptr⟩),
        handles := σ.handles ++ [some sl.ptr] }) ∧
    (∀ h a, σ.handles.getD h none = some (some a) →
      dropLocalFn σ h =
        releaseAt { σ with handles := σ.handles.set h none } a (-1) 0) ∧
    (∀ a b, sl.ptr = some a → σ.blocks.getD a none = some b →
      (exec σ (.copyAtomic s)).blocks.getD a none =
        some { b with count := ⟨b.count.ecount + -1, b.count.rcount + 1⟩ }) := by
  refine ⟨?_, ?_, ?_⟩
  · simp only [exec, hcell]
  · intro h a hcell2
    unfold dropLocalFn
    rw [hcell2]
  · intro a b hptr hb
    obtain ⟨sec, sptr⟩ := sl
    have hsp : sptr = some a := hptr
    subst hsp
    simp only [exec]
    rw [hcell]
    dsimp only
    have hb2 : (Sys.mk σ.blocks σ.handles
        (σ.slots.set s (some ⟨sec + 1, some a⟩)) σ.destroyed σ.recycledEv
        σ.dtors).blocks.getD a none = some b := hb
    rw [adjustBlock_eq hb2 (-1) 1]
    dsimp only
    exact getD_set_self _ _ (lt_length_of_getD hb)

/-- Witness for C1 (amended) at a concrete input: pinning bumps the slot
pair from `(0, blk 0)` to `(1, blk 0)` and appends a handle on block 0,
leaving the block itself untouched. -/
theorem C1_witness :
    exec ⟨[some ⟨⟨0, 1⟩, some 5, none, none⟩], [], [some ⟨0, some 0⟩], [], [], []⟩
        (.pinLocal 0) =
      ⟨[some ⟨⟨0, 1⟩, some 5, none, none⟩], [some (some 0)],
        [some ⟨1, some 0⟩], [], [], []⟩ :=
  (C1_pin_reserves_ephemeral
    ⟨[some ⟨⟨0, 1⟩, some 5, none, none⟩], [], [some ⟨0, some 0⟩], [], [], []⟩
    0 ⟨0, some 0⟩ (by decide)).1

theorem set_getD_eq {l : List (Option α)} {i : Nat} {v : Option α}
    (h : l.getD i none = v) : l.set i v = l := by
  induction l generalizing i with
  | nil => rfl
  | cons hd tl ih =>
    cases i with
    | zero =>
      have : hd = v := h
      rw [List.set]
      rw [this]
    | succ j =>
      rw [List.set]
      rw [ih h]

theorem set_append_len (l : List α) (x y : α) :
    (l ++ [x]).set l.length y = l ++ [y] := by
  induction l with
  | nil => rfl
  | cons hd tl ih =>
    show hd :: ((tl ++ [x]).set tl.length y) = hd :: (tl ++ [y])
    rw [ih]

theorem refcount_eta_adjust (c : refcount) :
    (⟨c.ecount + 1 + -1, c.rcount + 0 + 0⟩ : refcount) = c := by
  obtain ⟨ce, cr⟩ := c
  simp only [refcount.mk.injEq]
  constructor <;> ring

/-- C4 counterexample: pin the same slot twice and release both handles.
The block's pair becomes `(-2, 1)`, so `ephemeral + refs = -1 < 0`; and
already after the first release the pair is `(-1, 1)` — `ephemeral + refs`
went from nonzero to zero — yet nothing is destroyed (the two un-migrated
shares live on as the slot's `eph_out = 2`, delivered only at slot
teardown). -/
theorem C4_counterexample :
    ((runOps [.newAtomic (some 5), .pinLocal 0, .pinLocal 0, .dropLocal 0,
        .dropLocal 1]).blocks.getD 0 none =
      some ⟨⟨-2, 1⟩, some 5, none, none⟩) ∧
    (-2 : Int) + 1 < 0 ∧
    ((runOps [.newAtomic (some 5), .pinLocal 0, .dropLocal 0]).blocks.getD
        0 none = some ⟨⟨-1, 1⟩, some 5, none, none⟩) ∧
    (runOps [.newAtomic (some 5), .pinLocal 0, .dropLocal 0]).destroyed = [] ∧
    (runOps [.newAtomic (some 5), .pinLocal 0, .dropLocal 0]).dtors = [] ∧
    (runOps [.newAtomic (some 5), .pinLocal 0, .pinLocal 0, .dropLocal 0,
        .dropLocal 1]).destroyed = [] := by
  decide

/-- C4 (amended): under every sequence of handle and slot operations, each
live block satisfies `ephemeral + refs + Σ eph_out ≥ 0`, where `Σ eph_out`
sums the slot-local ephemeral counts of the slots holding the block —
`ephemeral + refs` alone can go negative (see the counterexample).  More
precisely `ephemeral + Σ eph_out` equals the number of live handles on the
block and `refs` equals the number of live slots holding it.  A block is
freed exactly at an `adjust` returning the `(0,0)` indication (the shape of
`releaseAt`), each freed address is freed at most once (`destroyed.Nodup`)
and stays dead forever. -/
theorem C4_counts_invariant (ops : List Op) :
    Inv (runOps ops) ∧
    (∀ a b, (runOps ops).blocks.getD a none = some b →
      0 ≤ b.count.ecount + b.count.rcount + Ksum (runOps ops).slots a ∧
      0 ≤ b.count.rcount ∧
      b.count.ecount + Ksum (runOps ops).slots a =
        (Hcount (runOps ops).handles a : Int) ∧
      b.count.rcount = (Scount (runOps ops).slots a : Int)) ∧
    (runOps ops).destroyed.Nodup ∧
    (∀ a ∈ (runOps ops).destroyed, (runOps ops).blocks.getD a none = none) := by
  obtain ⟨hB, hH, hS, hND, hD⟩ := inv_runOps ops
  refine ⟨⟨hB, hH, hS, hND, hD⟩, ?_, hND, fun a ha => (hD a ha).2⟩
  intro a b hb
  have hOK := hB a (lt_length_of_getD hb)
  unfold blockOK at hOK
  rw [hb] at hOK
  simp only [optAll_some] at hOK
  obtain ⟨h1, h2⟩ := hOK
  refine ⟨?_, ?_, h1, h2⟩
  · have hHpos : (0 : Int) ≤ (Hcount (runOps ops).handles a : Int) :=
      Int.natCast_nonneg _
    have hSpos : (0 : Int) ≤ (Scount (runOps ops).slots a : Int) :=
      Int.natCast_nonneg _
    omega
  · have hSpos : (0 : Int) ≤ (Scount (runOps ops).slots a : Int) :=
      Int.natCast_nonneg _
    omega

/-- Witness for C4 (amended) at the counterexample run: the per-block
inequality holds with the slot-side ephemeral shares included. -/
theorem C4_witness :
    Inv (runOps [.newAtomic (some 5), .pinLocal 0, .pinLocal 0, .dropLocal 0,
      .dropLocal 1]) ∧
    0 ≤ (-2 : Int) + 1 +
      Ksum (runOps [.newAtomic (some 5), .pinLocal 0, .pinLocal 0,
        .dropLocal 0, .dropLocal 1]).slots 0 :=
  ⟨(C4_counts_invariant [.newAtomic (some 5), .pinLocal 0, .pinLocal 0,
      .dropLocal 0, .dropLocal 1]).1,
   ((C4_counts_invariant [.newAtomic (some 5), .pinLocal 0, .pinLocal 0,
      .dropLocal 0, .dropLocal 1]).2.1 0 ⟨⟨-2, 1⟩, some 5, none, none⟩
      (by decide)).1⟩

/-- C9 counterexample: pinning a slot and immediately releasing the handle
does not restore the individual counters: the slot's `eph_out` stays one
higher and the block's `ephemeral` one lower (only their sum is
preserved). -/
theorem C9_counterexample :
    (runOps [.newAtomic (some 7)]).slots.getD 0 none = some ⟨0, some 0⟩ ∧
    (runOps [.newAtomic (some 7)]).blocks.getD 0 none =
      some ⟨⟨0, 1⟩, some 7, none, none⟩ ∧
    (runOps [.newAtomic (some 7), .pinLocal 0, .dropLocal 0]).slots.getD
      0 none = some ⟨1, some 0⟩ ∧
    (runOps [.newAtomic (some 7), .pinLocal 0, .dropLocal 0]).blocks.getD
      0 none = some ⟨⟨-1, 1⟩, some 7, none, none⟩ := by
  decide

/-- C9 (amended): in an invariant state, pin-then-release preserves the
combined accounting — `refs` is unchanged, `block.ephemeral + slot.eph_out`
is unchanged (each moved by one in opposite directions), and the block is
not destroyed or recycled; copying a handle and destructing the copy
restores every counter exactly (blocks and slots lists are unchanged; only
a dead handle cell remains) and destroys nothing. -/
theorem C9_pin_release_round_trip (σ : Sys) (hI : Inv σ) :
    (∀ s sl a b, σ.slots.getD s none = some sl → sl.ptr = some a →
      σ.blocks.getD a none = some b →
      ((exec (exec σ (.pinLocal s)) (.dropLocal σ.handles.length)).slots.getD
          s none = some ⟨sl.ecount + 1, some a⟩ ∧
       (exec (exec σ (.pinLocal s)) (.dropLocal σ.handles.length)).blocks.getD
          a none =
         some { b with count := ⟨b.count.ecount + -1, b.count.rcount + 0⟩ } ∧
       (b.count.ecount + -1) + (sl.ecount + 1) = b.count.ecount + sl.ecount ∧
       (exec (exec σ (.pinLocal s)) (.dropLocal σ.handles.length)).destroyed =
          σ.destroyed ∧
       (exec (exec σ (.pinLocal s)) (.dropLocal σ.handles.length)).dtors =
          σ.dtors ∧
       (exec (exec σ (.pinLocal s)) (.dropLocal σ.handles.length)).recycledEv =
          σ.recycledEv)) ∧
    (∀ h hv, σ.handles.getD h none = some hv →
      ((exec (exec σ (.copyLocal h)) (.dropLocal σ.handles.length)).blocks =
          σ.blocks ∧
       (exec (exec σ (.copyLocal h)) (.dropLocal σ.handles.length)).slots =
          σ.slots ∧
       (exec (exec σ (.copyLocal h)) (.dropLocal σ.handles.length)).handles =
          σ.handles ++ [none] ∧
       (exec (exec σ (.copyLocal h)) (.dropLocal σ.handles.length)).destroyed =
          σ.destroyed ∧
       (exec (exec σ (.copyLocal h)) (.dropLocal σ.handles.length)).dtors =
          σ.dtors ∧
       (exec (exec σ (.copyLocal h)) (.dropLocal σ.handles.length)).recycledEv =
          σ.recycledEv)) := by
  obtain ⟨hB, hH, hS, hND, hD⟩ := hI
  constructor
  · intro s sl a b hcell hptr hb
    obtain ⟨sec, sptr⟩ := sl
    have hsp : sptr = some a := hptr
    subst hsp
    have hslen : s < σ.slots.length := lt_length_of_getD hcell
    have hOKa := hB a (lt_length_of_getD hb)
    unfold blockOK at hOKa
    rw [hb] at hOKa
    simp only [optAll_some] at hOKa
    obtain ⟨h1, h2⟩ := hOKa
    have hSpos : 0 < Scount σ.slots a := by
      unfold Scount
      refine List.countP_pos.mpr ⟨some ⟨sec, some a⟩, mem_of_getD hcell, ?_⟩
      simp [slotHit]
    have hrne : b.count.rcount ≠ 0 := by omega
    have hpin : exec σ (.pinLocal s) = { σ with
        slots := σ.slots.set s (some ⟨sec + 1, some a⟩),
        handles := σ.handles ++ [some (some a)] } := by
      simp only [exec, hcell]
    rw [hpin]
    simp only [exec]
    unfold dropLocalFn
    rw [show ({ σ with
        slots := σ.slots.set s (some ⟨sec + 1, some a⟩),
        handles := σ.handles ++ [some (some a)] } : Sys).handles.getD
          σ.handles.length none = some (some a) from getD_append_len _ _ _]
    try dsimp only
    unfold releaseAt
    rw [show ({ σ with
        slots := σ.slots.set s (some ⟨sec + 1, some a⟩),
        handles := (σ.handles ++ [some (some a)]).set σ.handles.length
          none } : Sys).blocks.getD a none = some b from hb]
    try dsimp only
    have hz : ¬(b.count.ecount + -1 = 0 ∧ b.count.rcount + 0 = 0) := by
      intro hc
      exact hrne (by omega)
    rw [if_neg (by
      simp only [adjustSeq]
      rw [if_neg hz]
      exact one_ne_zero)]
    refine ⟨?_, ?_, by ring, rfl, rfl, rfl⟩
    · exact getD_set_self _ _ hslen
    · exact getD_set_self _ _ (lt_length_of_getD hb)
  · intro h hv hcell
    cases hv with
    | none =>
      have hcopy : exec σ (.copyLocal h) =
          { σ with handles := σ.handles ++ [some none] } := by
        simp only [exec, hcell]
      rw [hcopy]
      simp only [exec]
      unfold dropLocalFn
      rw [show ({ σ with handles := σ.handles ++ [some none] } : Sys).handles.getD
            σ.handles.length none = some none from getD_append_len _ _ _]
      try dsimp only
      exact ⟨rfl, rfl, set_append_len _ _ _, rfl, rfl, rfl⟩
    | some a2 =>
      have hOKh := hH h (lt_length_of_getD hcell)
      unfold handleOK at hOKh
      rw [hcell] at hOKh
      obtain ⟨b2, hb2⟩ := Option.ne_none_iff_exists'.1 hOKh
      have haLen := lt_length_of_getD hb2
      have hOKa := hB a2 haLen
      unfold blockOK at hOKa
      rw [hb2] at hOKa
      simp only [optAll_some] at hOKa
      obtain ⟨h1, h2⟩ := hOKa
      have hHpos : 0 < Hcount σ.handles a2 := by
        unfold Hcount
        refine List.countP_pos.mpr ⟨some (some a2), mem_of_getD hcell, ?_⟩
        simp [handleHit]
      have hcopy : exec σ (.copyLocal h) = { σ with
          blocks := (σ.blocks.set a2 (some { b2 with
            count := ⟨b2.count.ecount + 1, b2.count.rcount + 0⟩ })),
          handles := σ.handles ++ [some (some a2)] } := by
        simp only [exec, hcell]
        try dsimp only
        rw [adjustBlock_eq hb2 1 0]
      rw [hcopy]
      simp only [exec]
      unfold dropLocalFn
      rw [show ({ σ with
          blocks := (σ.blocks.set a2 (some { b2 with
            count := ⟨b2.count.ecount + 1, b2.count.rcount + 0⟩ })),
          handles := σ.handles ++ [some (some a2)] } : Sys).handles.getD
            σ.handles.length none = some (some a2) from getD_append_len _ _ _]
      try dsimp only
      unfold releaseAt
      rw [show ({ σ with
          blocks := (σ.blocks.set a2 (some { b2 with
            count := ⟨b2.count.ecount + 1, b2.count.rcount + 0⟩ })),
          handles := (σ.handles ++ [some (some a2)]).set σ.handles.length
            none } : Sys).blocks.getD a2 none = some { b2 with
            count := ⟨b2.count.ecount + 1, b2.count.rcount + 0⟩ } from
        getD_set_self _ _ haLen]
      try dsimp only
      have hz : ¬(b2.count.ecount + 1 + -1 = 0 ∧ b2.count.rcount + 0 + 0 = 0) := by
        intro hc
        have hr0 : b2.count.rcount = 0 := by omega
        have hS0 : Scount σ.slots a2 = 0 := by
          have h2c := h2
          rw [hr0] at h2c
          exact_mod_cast h2c.symm
        have hK0 := Ksum_eq_zero_of_Scount _ _ hS0
        omega
      rw [if_neg (by
        simp only [adjustSeq]
        rw [if_neg hz]
        exact one_ne_zero)]
      refine ⟨?_, rfl, set_append_len _ _ _, rfl, rfl, rfl⟩
      have hYb : ({ b2 with count := ⟨b2.count.ecount + 1 + -1,
          b2.count.rcount + 0 + 0⟩ } : atomic_ptr_ref) = b2 := by
        rw [refcount_eta_adjust b2.count]
      try rw [List.set_set]
      simp only [adjustSeq]
      rw [hYb]
      exact set_getD_eq hb2

/-- Witness for C9 (amended) at a concrete invariant state: one slot and one
independent handle on a fresh block. -/
theorem C9_witness :
    (exec (exec ⟨[some ⟨⟨0, 1⟩, some 7, none, none⟩], [],
        [some ⟨0, some 0⟩], [], [], []⟩ (.pinLocal 0)) (.dropLocal 0)).blocks.getD
      0 none = some ⟨⟨-1, 1⟩, some 7, none, none⟩ :=
  (((C9_pin_release_round_trip
      ⟨[some ⟨⟨0, 1⟩, some 7, none, none⟩], [], [some ⟨0, some 0⟩], [], [], []⟩
      (by decide)).1 0 ⟨0, some 0⟩ 0 ⟨⟨0, 1⟩, some 7, none, none⟩
      (by decide) (by decide) (by decide)).2.1 : _)

theorem adjustBlock_pool_frame (σ : Sys) (a0 : Nat) (de dr : Int) (a : Nat)
    (b b' : atomic_ptr_ref) (hb : σ.blocks.getD a none = some b)
    (hb' : (adjustBlock σ a0 de dr).blocks.getD a none = some b') :
    b'.pool = b.pool := by
  by_cases ha : a = a0
  · subst ha
    rw [adjustBlock_getD_self hb de dr] at hb'
    rw [← Option.some.inj hb']
  · rw [adjustBlock_getD_ne a ha de dr, hb] at hb'
    rw [← Option.some.inj hb']

theorem releaseAt_pool_frame (σ : Sys) (a0 : Nat) (de dr : Int) (a : Nat)
    (b b' : atomic_ptr_ref) (hb : σ.blocks.getD a none = some b)
    (hb' : (releaseAt σ a0 de dr).blocks.getD a none = some b') :
    b'.pool = b.pool := by
  unfold releaseAt at hb'
  cases hb0 : σ.blocks.getD a0 none with
  | none =>
    rw [hb0] at hb'
    rw [hb] at hb'
    rw [← Option.some.inj hb']
  | some b0 =>
    rw [hb0] at hb'
    dsimp only at hb'
    by_cases hz : (adjustSeq b0.count de dr).2 = 0
    · rw [if_pos hz] at hb'
      cases hpool : b0.pool with
      | none =>
        rw [hpool] at hb'
        dsimp only at hb'
        by_cases ha : a = a0
        · subst ha
          rw [getD_set_self _ _ (lt_length_of_getD hb)] at hb'
          exact absurd hb' (by simp)
        · rw [getD_set_ne _ _ (Ne.symm ha), hb] at hb'
          rw [← Option.some.inj hb']
      | some f =>
        rw [hpool] at hb'
        dsimp only at hb'
        by_cases ha : a = a0
        · subst ha
          rw [getD_set_self _ _ (lt_length_of_getD hb)] at hb'
          have hbb : b = b0 := Option.some.inj (hb.symm.trans hb0)
          rw [← Option.some.inj hb', hbb, hpool]
        · rw [getD_set_ne _ _ (Ne.symm ha), hb] at hb'
          rw [← Option.some.inj hb']
    · rw [if_neg hz] at hb'
      by_cases ha : a = a0
      · subst ha
        rw [getD_set_self _ _ (lt_length_of_getD hb)] at hb'
        have hbb : b = b0 := Option.some.inj (hb.symm.trans hb0)
        rw [← Option.some.inj hb', hbb]
      · rw [getD_set_ne _ _ (Ne.symm ha), hb] at hb'
        rw [← Option.some.inj hb']

theorem dropLocalFn_pool_frame (σ : Sys) (h0 : Nat) (a : Nat)
    (b b' : atomic_ptr_ref) (hb : σ.blocks.getD a none = some b)
    (hb' : (dropLocalFn σ h0).blocks.getD a none = some b') :
    b'.pool = b.pool := by
  unfold dropLocalFn at hb'
  cases hcell : σ.handles.getD h0 none with
  | none =>
    rw [hcell] at hb'
    rw [hb] at hb'
    rw [← Option.some.inj hb']
  | some hv =>
    rw [hcell] at hb'
    dsimp only at hb'
    cases hv with
    | none =>
      rw [hb] at hb'
      rw [← Option.some.inj hb']
    | some a2 =>
      dsimp only at hb'
      exact releaseAt_pool_frame
        ⟨σ.blocks, σ.handles.set h0 none, σ.slots, σ.destroyed, σ.recycledEv,
          σ.dtors⟩ a2 (-1) 0 a b b' hb hb'

theorem dropAtomicFn_pool_frame (σ : Sys) (s0 : Nat) (a : Nat)
    (b b' : atomic_ptr_ref) (hb : σ.blocks.getD a none = some b)
    (hb' : (dropAtomicFn σ s0).blocks.getD a none = some b') :
    b'.pool = b.pool := by
  unfold dropAtomicFn at hb'
  cases hcell : σ.slots.getD s0 none with
  | none =>
    rw [hcell] at hb'
    rw [hb] at hb'
    rw [← Option.some.inj hb']
  | some sl =>
    rw [hcell] at hb'
    dsimp only at hb'
    cases hptr : sl.ptr with
    | none =>
      rw [hptr] at hb'
      rw [hb] at hb'
      rw [← Option.some.inj hb']
    | some a2 =>
      rw [hptr] at hb'
      dsimp only at hb'
      exact releaseAt_pool_frame
        ⟨σ.blocks, σ.handles, σ.slots.set s0 none, σ.destroyed, σ.recycledEv,
          σ.dtors⟩ a2 sl.ecount (-1) a b b' hb hb'

theorem getD_append_frame {l : List (Option α)} (m : List (Option α)) {a : Nat}
    {b : α} (hb : l.getD a none = some b) : (l ++ m).getD a none = some b := by
  rw [getD_append_lt m none (lt_length_of_getD hb)]
  exact hb

/-- C10: `local_ptr::setPool` and `local_ptr::getPool` (atomic_ptr.h:247-253)
store through and read through `refptr` with no emptiness check: on an empty
handle either call dereferences the null block pointer (modelled as `none`);
under the non-empty precondition `getPool` reads exactly the block's pool
field, `setPool` overwrites exactly that field, and a `getPool` after a
`setPool p` returns `p`.  The third conjunct is the frame property making
"most recently stored" precise: no operation other than `setPool` ever
changes a live block's pool field; the fourth shows both block-creating
constructors initialize the field to the null hook, so `getPool` returns
null until the first `setPool`. -/
theorem C10_pool_access (σ : Sys) (h : Nat) (p : Option Nat) :
    (σ.handles.getD h none = some none →
      setPoolRun σ h p = none ∧ getPoolRun σ h = none) ∧
    (∀ a b, σ.handles.getD h none = some (some a) →
      σ.blocks.getD a none = some b →
      getPoolRun σ h = some b.pool ∧
      setPoolRun σ h p =
        some { σ with blocks := σ.blocks.set a (some { b with pool := p }) } ∧
      getPoolRun { σ with
        blocks := σ.blocks.set a (some { b with pool := p }) } h = some p) ∧
    (∀ op a b b', σ.blocks.getD a none = some b →
      (exec σ op).blocks.getD a none = some b' →
      (∀ h2 p2, op ≠ .setPoolOp h2 p2) → b'.pool = b.pool) ∧
    (∀ q, (exec σ (.newLocal (some q))).blocks.getD σ.blocks.length none =
        some ⟨⟨1, 0⟩, some q, none, none⟩ ∧
      (exec σ (.newAtomic (some q))).blocks.getD σ.blocks.length none =
        some ⟨⟨0, 1⟩, some q, none, none⟩) := by
  refine ⟨?_, ?_, ?_, ?_⟩
  · intro hcell
    constructor
    · unfold setPoolRun
      rw [hcell]
    · unfold getPoolRun
      rw [hcell]
  · intro a b hcell hb
    have hlen := lt_length_of_getD hb
    refine ⟨?_, ?_, ?_⟩
    · unfold getPoolRun
      rw [hcell]
      dsimp only
      rw [hb]
    · unfold setPoolRun
      rw [hcell]
      dsimp only
      rw [hb]
    · unfold getPoolRun
      show (match σ.handles.getD h none with
        | some (some a2) =>
          (match (σ.blocks.set a (some { b with pool := p })).getD a2 none with
           | some b2 => some b2.pool
           | none => none)
        | _ => none) = some p
      rw [hcell]
      dsimp only
      rw [getD_set_self _ _ hlen]
  · intro op a b b' hb hb' hnot
    cases op with
    | newLocal q =>
      cases q with
      | none =>
        simp only [exec] at hb'
        rw [hb] at hb'
        rw [← Option.some.inj hb']
      | some q2 =>
        simp only [exec] at hb'
        rw [getD_append_frame _ hb] at hb'
        rw [← Option.some.inj hb']
    | copyLocal h0 =>
      simp only [exec] at hb'
      cases hcell : σ.handles.getD h0 none with
      | none =>
        rw [hcell] at hb'
        rw [hb] at hb'
        rw [← Option.some.inj hb']
      | some hv =>
        rw [hcell] at hb'
        cases hv with
        | none =>
          dsimp only at hb'
          rw [hb] at hb'
          rw [← Option.some.inj hb']
        | some a2 =>
          dsimp only at hb'
          exact adjustBlock_pool_frame σ a2 1 0 a b b' hb hb'
    | pinLocal s0 =>
      simp only [exec] at hb'
      cases hcell : σ.slots.getD s0 none with
      | none =>
        rw [hcell] at hb'
        rw [hb] at hb'
        rw [← Option.some.inj hb']
      | some sl =>
        rw [hcell] at hb'
        dsimp only at hb'
        rw [hb] at hb'
        rw [← Option.some.inj hb']
    | recycleLocal a0 =>
      simp only [exec] at hb'
      cases hb0 : σ.blocks.getD a0 none with
      | none =>
        rw [hb0] at hb'
        rw [hb] at hb'
        rw [← Option.some.inj hb']
      | some b0 =>
        rw [hb0] at hb'
        dsimp only at hb'
        by_cases hq : b0.count.ecount = 0 ∧ b0.count.rcount = 0
        · rw [if_pos hq] at hb'
          dsimp only at hb'
          by_cases ha : a = a0
          · subst ha
            rw [getD_set_self _ _ (lt_length_of_getD hb)] at hb'
            have hbb : b = b0 := Option.some.inj (hb.symm.trans hb0)
            rw [← Option.some.inj hb', hbb]
          · rw [getD_set_ne _ _ (Ne.symm ha), hb] at hb'
            rw [← Option.some.inj hb']
        · rw [if_neg hq] at hb'
          rw [hb] at hb'
          rw [← Option.some.inj hb']
    | dropLocal h0 =>
      simp only [exec] at hb'
      exact dropLocalFn_pool_frame σ h0 a b b' hb hb'
    | newAtomic q =>
      cases q with
      | none =>
        simp only [exec] at hb'
        rw [hb] at hb'
        rw [← Option.some.inj hb']
      | some q2 =>
        simp only [exec] at hb'
        rw [getD_append_frame _ hb] at hb'
        rw [← Option.some.inj hb']
    | fromLocalAtomic h0 =>
      simp only [exec] at hb'
      cases hcell : σ.handles.getD h0 none with
      | none =>
        rw [hcell] at hb'
        rw [hb] at hb'
        rw [← Option.some.inj hb']
      | some hv =>
        rw [hcell] at hb'
        cases hv with
        | none =>
          dsimp only at hb'
          rw [hb] at hb'
          rw [← Option.some.inj hb']
        | some a2 =>
          dsimp only at hb'
          exact adjustBlock_pool_frame σ a2 0 1 a b b' hb hb'
    | copyAtomic s0 =>
      simp only [exec] at hb'
      cases hcell : σ.slots.getD s0 none with
      | none =>
        rw [hcell] at hb'
        rw [hb] at hb'
        rw [← Option.some.inj hb']
      | some sl =>
        rw [hcell] at hb'
        dsimp only at hb'
        cases hptr : sl.ptr with
        | none =>
          rw [hptr] at hb'
          dsimp only at hb'
          rw [hb] at hb'
          rw [← Option.some.inj hb']
        | some a2 =>
          rw [hptr] at hb'
          dsimp only at hb'
          exact adjustBlock_pool_frame
            ⟨σ.blocks, σ.handles,
              σ.slots.set s0 (some ⟨sl.ecount + 1, some a2⟩),
              σ.destroyed, σ.recycledEv, σ.dtors⟩ a2 (-1) 1 a b b' hb hb'
    | recycleAtomic a0 =>
      simp only [exec] at hb'
      cases hb0 : σ.blocks.getD a0 none with
      | none =>
        rw [hb0] at hb'
        rw [hb] at hb'
        rw [← Option.some.inj hb']
      | some b0 =>
        rw [hb0] at hb'
        dsimp only at hb'
        by_cases hq : b0.count.ecount = 0 ∧ b0.count.rcount = 0
        · rw [if_pos hq] at hb'
          dsimp only at hb'
          by_cases ha : a = a0
          · subst ha
            rw [getD_set_self _ _ (lt_length_of_getD hb)] at hb'
            have hbb : b = b0 := Option.some.inj (hb.symm.trans hb0)
            rw [← Option.some.inj hb', hbb]
          · rw [getD_set_ne _ _ (Ne.symm ha), hb] at hb'
            rw [← Option.some.inj hb']
        · rw [if_neg hq] at hb'
          rw [hb] at hb'
          rw [← Option.some.inj hb']
    | dropAtomic s0 =>
      simp only [exec] at hb'
      exact dropAtomicFn_pool_frame σ s0 a b b' hb hb'
    | swapOp s0 t0 =>
      simp only [exec] at hb'
      by_cases hst : s0 = t0
      · rw [if_pos hst] at hb'
        rw [hb] at hb'
        rw [← Option.some.inj hb']
      · rw [if_neg hst] at hb'
        cases hs0 : σ.slots.getD s0 none with
        | none =>
          rw [hs0] at hb'
          rw [hb] at hb'
          rw [← Option.some.inj hb']
        | some sv =>
          rw [hs0] at hb'
          cases ht0 : σ.slots.getD t0 none with
          | none =>
            rw [ht0] at hb'
            dsimp only at hb'
            rw [hb] at hb'
            rw [← Option.some.inj hb']
          | some tv =>
            rw [ht0] at hb'
            dsimp only at hb'
            rw [hb] at hb'
            rw [← Option.some.inj hb']
    | casOp s0 h0 t0 =>
      simp only [exec] at hb'
      by_cases hst : s0 = t0
      · rw [if_pos hst] at hb'
        rw [hb] at hb'
        rw [← Option.some.inj hb']
      · rw [if_neg hst] at hb'
        cases hcmp : σ.handles.getD h0 none with
        | none =>
          rw [hcmp] at hb'
          rw [hb] at hb'
          rw [← Option.some.inj hb']
        | some cmp =>
          rw [hcmp] at hb'
          cases hs0 : σ.slots.getD s0 none with
          | none =>
            rw [hs0] at hb'
            dsimp only at hb'
            rw [hb] at hb'
            rw [← Option.some.inj hb']
          | some sv =>
            rw [hs0] at hb'
            cases ht0 : σ.slots.getD t0 none with
            | none =>
              rw [ht0] at hb'
              dsimp only at hb'
              rw [hb] at hb'
              rw [← Option.some.inj hb']
            | some tv =>
              rw [ht0] at hb'
              dsimp only at hb'
              by_cases hm : sv.ptr = cmp
              · rw [if_pos hm] at hb'
                exact dropAtomicFn_pool_frame
                  ⟨σ.blocks, σ.handles,
                    (σ.slots.set s0 (some tv)).set t0 (some sv),
                    σ.destroyed, σ.recycledEv, σ.dtors⟩ t0 a b b' hb hb'
              · rw [if_neg hm] at hb'
                exact dropAtomicFn_pool_frame σ t0 a b b' hb hb'
    | setPoolOp h2 p2 => exact absurd rfl (hnot h2 p2)
  · intro q
    constructor
    · simp only [exec]
      exact getD_append_len _ _ _
    · simp only [exec]
      rw [show (some (newBlock (some q)) : Option atomic_ptr_ref) =
        some ⟨⟨0, 1⟩, some q, none, none⟩ from rfl]
      exact getD_append_len _ _ _

/-- Witness for C10 at a concrete input: a handle on a block whose hook is
unset reads the null hook, and reads back `some 3` after storing it. -/
theorem C10_witness :
    getPoolRun ⟨[some ⟨⟨1, 0⟩, some 7, none, none⟩], [some (some 0)], [], [],
      [], []⟩ 0 = some none :=
  ((C10_pool_access ⟨[some ⟨⟨1, 0⟩, some 7, none, none⟩], [some (some 0)], [],
      [], [], []⟩ 0 (some 3)).2.1 0 ⟨⟨1, 0⟩, some 7, none, none⟩
    (by decide) (by decide)).1

end AtomicPtr
